import Mathlib

/-!
Verification development for the virtual-DOM list reconciler of
`packages/yew/src/virtual_dom/vlist.rs`.

The reconciler is embedded shallowly:

* a `Key` is a natural number (keys are opaque, comparable, hashable);
* a new (not yet rendered) child node `LNode` carries only its optional key —
  the reconciler inspects nothing else of a left-hand node;
* a previously rendered child node `RNode` carries its optional key and the
  identity `inst : Nat` of its mounted DOM instance;
* the render target is a state `St`: the container's ordered child list
  (`dom`, a list of instance ids), the running insertion anchor
  (`anchor : Option Nat`, `none` meaning end of container, mirroring
  `NodeRef`/`next_sibling`), a fresh-instance counter, and the trace `ops` of
  mutations emitted so far.

`VNode::apply` with `ancestor = Some(old)` patches in place and reuses the old
node's DOM instance, returning a reference to it; with `ancestor = None` it
creates a fresh instance and inserts it before the anchor.  `detach` removes
the instance, `move_before` relocates it before the anchor.  These are the
writer operations below; the reconcilers are then direct translations of the
loops in `apply_unkeyed` and `apply_keyed`.
-/

/-- A mutation emitted against the render target, in the order the Rust code
performs them: `create i a` is `VDiff::apply` with `ancestor = None` producing
instance `i` inserted before anchor `a`; `patch i` is `VDiff::apply` with
`ancestor = Some(node with instance i)`; `move i a` is `VNode::move_before`;
`detach i` is `VNode::detach`. -/
inductive Op where
  | create (inst : Nat) (anchor : Option Nat)
  | patch (inst : Nat)
  | move (inst : Nat) (anchor : Option Nat)
  | detach (inst : Nat)
deriving DecidableEq, Repr

/-- A new (left-hand) child node: the reconciler only ever reads its key. -/
structure LNode where
  key : Option Nat
deriving DecidableEq, Repr

/-- A previously rendered (right-hand) child node: its key and the identity of
its mounted DOM instance. -/
structure RNode where
  key : Option Nat
  inst : Nat
deriving DecidableEq, Repr

/-- Render-target state threaded through a reconciliation pass. -/
structure St where
  /-- The container's ordered child list (instance ids). -/
  dom : List Nat
  /-- The running insertion anchor (`next_sibling`); `none` = end. -/
  anchor : Option Nat
  /-- Next unused instance id. -/
  fresh : Nat
  /-- Trace of emitted mutations, oldest first. -/
  ops : List Op
deriving DecidableEq, Repr

/-- Insert `i` immediately before the first occurrence of the anchor in the
container (append at the end when the anchor is `none` or absent). -/
def insert_before (dom : List Nat) (i : Nat) : Option Nat → List Nat
  | none => dom ++ [i]
  | some a =>
    match dom with
    | [] => [i]
    | x :: xs => if x = a then i :: x :: xs else x :: insert_before xs i (some a)

/-- `ElementWriter::add`: apply a new node with no ancestor — a fresh instance
is created and inserted before the current anchor, and the anchor advances to
it.  Returns the node as now rendered (its assigned instance). -/
def writer_add (st : St) (l : LNode) : St × RNode :=
  (⟨insert_before st.dom st.fresh st.anchor, some st.fresh, st.fresh + 1,
    st.ops ++ [Op.create st.fresh st.anchor]⟩,
   ⟨l.key, st.fresh⟩)

/-- `ElementWriter::patch`: apply a new node against ancestor `r` — the old
instance is reused in place and the anchor advances to it. -/
def writer_patch (st : St) (l : LNode) (r : RNode) : St × RNode :=
  ({ st with anchor := some r.inst, ops := st.ops ++ [Op.patch r.inst] },
   ⟨l.key, r.inst⟩)

/-- `VNode::move_before(parent, next_sibling.get())`: relocate the mounted
instance immediately before the current anchor.  The anchor itself does not
advance (that happens at the subsequent patch). -/
def move_before (st : St) (r : RNode) : St :=
  { st with dom := insert_before (st.dom.erase r.inst) r.inst st.anchor,
            ops := st.ops ++ [Op.move r.inst st.anchor] }

/-- `VNode::detach(parent, false)`: remove the mounted instance.  Not counted
toward the anchor. -/
def detach_node (st : St) (r : RNode) : St :=
  { st with dom := st.dom.erase r.inst, ops := st.ops ++ [Op.detach r.inst] }

/-- Run `writer_add` over a list of new nodes in the given order
(the `while diff > 0` loop of `apply_unkeyed`, fed rightmost-first). -/
def add_all : List LNode → St → List RNode × St
  | [], st => ([], st)
  | l :: ls, st =>
    let p := writer_add st l
    let q := add_all ls p.1
    (p.2 :: q.1, q.2)

/-- Run `writer_patch` over a list of (new, old) pairs in the given order. -/
def patch_all : List (LNode × RNode) → St → List RNode × St
  | [], st => ([], st)
  | p :: ps, st =>
    let q := writer_patch st p.1 p.2
    let r := patch_all ps q.1
    (q.2 :: r.1, r.2)

/-- Detach every node of the list in the given order. -/
def detach_all : List RNode → St → St
  | [], st => st
  | r :: rs, st => detach_all rs (detach_node st r)

/-- `VList::apply_unkeyed` (vlist.rs lines 131-166): positional diff.  Both
sides are walked from the tail; `diff > 0` rightmost new nodes are added,
`diff < 0` rightmost old nodes are detached, the rest are patched pairwise. -/
def apply_unkeyed (lefts : List LNode) (rights : List RNode) (st : St) :
    List RNode × St :=
  if rights.length ≤ lefts.length then
    let k := lefts.length - rights.length
    let p := add_all (lefts.reverse.take k) st
    let q := patch_all ((lefts.reverse.drop k).zip rights.reverse) p.2
    ((p.1 ++ q.1).reverse, q.2)
  else
    let k := rights.length - lefts.length
    let st1 := detach_all (rights.reverse.take k) st
    let q := patch_all (lefts.reverse.zip (rights.reverse.drop k)) st1
    (q.1.reverse, q.2)

/-- The unkeyed reconciler as the specification states it: with
`diff = len(news) - len(olds)`, the `diff` rightmost new nodes (when positive)
are created right-to-left; the `-diff` rightmost old nodes (when negative) are
detached; the remaining equal-count elements are zipped positionally and
patched from the tail. -/
def unkeyed_spec (news : List LNode) (olds : List RNode) (st : St) :
    List RNode × St :=
  if olds.length ≤ news.length then
    let p := add_all (news.drop olds.length).reverse st
    let q := patch_all ((news.take olds.length).zip olds).reverse p.2
    ((p.1 ++ q.1).reverse, q.2)
  else
    let st1 := detach_all (olds.drop news.length).reverse st
    let q := patch_all (news.zip (olds.take news.length)).reverse st1
    (q.1.reverse, q.2)

/-- Keys of the nodes of a list, or `none` as soon as one node is unkeyed
(the `map_keys!` macro of `apply_keyed` panics on an unkeyed child of a fully
keyed list; the panic is modelled as `none`). -/
def collect_keys {α : Type} (f : α → Option Nat) : List α → Option (List Nat)
  | [] => some []
  | a :: l =>
    match f a, collect_keys f l with
    | some k, some ks => some (k :: ks)
    | _, _ => none

/-- `matching_len`: the number of leading positions where the two key lists
agree (find the first differing key of two iterators). -/
def matching_len (a b : List Nat) : Nat :=
  ((a.zip b).takeWhile fun p => p.1 == p.2).length

/-- The lookup map of the keyed middle pass: key, the old node, and the key of
the node immediately to its right in the old order (`next_r_key`). -/
abbrev KMap : Type := List (Nat × (RNode × Option Nat))

/-- `HashMap::insert`: a later insert for the same key replaces the earlier
entry. -/
def aInsert (m : KMap) (k : Nat) (v : RNode × Option Nat) : KMap :=
  (k, v) :: m.filter fun e => !(e.1 == k)

/-- `HashMap::get`-style lookup. -/
def aFind : KMap → Nat → Option (RNode × Option Nat)
  | [], _ => none
  | e :: m, k => if e.1 = k then some e.2 else aFind m k

/-- `HashMap::remove`: the removed value (if any) and the remaining map. -/
def aRemove : KMap → Nat → Option (RNode × Option Nat) × KMap
  | [], _ => (none, [])
  | e :: m, k =>
    if e.1 = k then (some e.2, m)
    else
      let p := aRemove m k
      (p.1, e :: p.2)

/-- Build the middle-pass lookup map (vlist.rs lines 230-240): walk the
(key, old node) pairs right-to-left, threading the previously processed key as
`next_r_key`, and insert each entry. -/
def mk_rights_diff (pairs : List (Nat × RNode)) : KMap :=
  go pairs.reverse none []
where
  go : List (Nat × RNode) → Option Nat → KMap → KMap
    | [], _, m => m
    | p :: rest, next_right_key, m =>
      go rest (some p.1) (aInsert m p.1 (p.2, next_right_key))

/-- The lookup map as the specification describes it: each old middle node
keyed by its key, stored with the key of its immediate right neighbour in the
old order (`fin` — `none` at the top level — for the rightmost element). -/
def annotateP : List (Nat × RNode) → Option Nat → KMap
  | [], _ => []
  | p :: rest, fin =>
    (p.1, (p.2, rest.head?.elim fin fun q => some q.1)) :: annotateP rest fin

/-- The conditional relocation of a matched middle node (vlist.rs lines
250-257): if the recorded old right-neighbour key and the tracked new
right-neighbour key are both present and equal, the node need not move;
otherwise it is moved before the current anchor. -/
def maybe_move (st : St) (r : RNode) (next_r_key next_left_key : Option Nat) :
    St :=
  match next_r_key, next_left_key with
  | some r_next, some l_next =>
    if r_next = l_next then st else move_before st r
  | _, _ => move_before st r

/-- The middle reconciliation loop of `apply_keyed` (vlist.rs lines 241-266):
walk the (key, new node) pairs (fed right-to-left), tracking the previously
processed key as `next_left_key`.  A key found in the map is moved before the
anchor unless its recorded old right neighbour equals the tracked new right
neighbour (both present), then patched; a key absent from the map is added
fresh.  Returns the rendered nodes (in processing order), the remaining map,
and the final state. -/
def apply_keyed_mid :
    List (Nat × LNode) → Option Nat → KMap → St → List RNode × KMap × St
  | [], _, m, st => ([], m, st)
  | (l_key, l) :: rest, next_left_key, m, st =>
    match aRemove m l_key with
    | (some (r, next_r_key), m') =>
      let st1 := maybe_move st r next_r_key next_left_key
      let q := writer_patch st1 l r
      let w := apply_keyed_mid rest (some l_key) m' q.1
      (q.2 :: w.1, w.2.1, w.2.2)
    | (none, m') =>
      let q := writer_add st l
      let w := apply_keyed_mid rest (some l_key) m' q.1
      (q.2 :: w.1, w.2.1, w.2.2)

/-- The slow path of `VList::apply_keyed` (vlist.rs lines 205-284), reached
when the common key prefix does not cover the shorter side: patch the common
suffix from the right, index the old middle zone into `rights_diff`, reconcile
the new middle zone right-to-left, detach the leftover map entries, and patch
the common prefix from the right.  The rendered children are reassembled in
order (head, middle, tail; each pass produced them right-to-left). -/
def apply_keyed_slow (lefts : List LNode) (rights : List RNode)
    (lefts_keys rights_keys : List Nat) (st : St) : List RNode × St :=
  let from_start := matching_len lefts_keys rights_keys
  let from_end := matching_len (lefts_keys.drop from_start).reverse
                               (rights_keys.drop from_start).reverse
  let lefts_to := lefts.length - from_end
  let rights_to := rights.length - from_end
  let t := patch_all (((lefts.drop lefts_to).zip (rights.drop rights_to)).reverse) st
  let rights_diff :=
    mk_rights_diff (((rights_keys.drop from_start).take (rights_to - from_start)).zip
                    ((rights.drop from_start).take (rights_to - from_start)))
  let w := apply_keyed_mid
    ((((lefts_keys.drop from_start).take (lefts_to - from_start)).zip
      ((lefts.drop from_start).take (lefts_to - from_start))).reverse)
    none rights_diff t.2
  let st3 := detach_all (w.2.1.map fun e => e.2.1) w.2.2
  let h := patch_all (((lefts.take from_start).zip (rights.take from_start)).reverse) st3
  (h.1.reverse ++ w.1.reverse ++ t.1.reverse, h.2)

/-- `VList::apply_keyed` (vlist.rs lines 172-284).  Extract both key lists
(panicking — `none` — if a node is unkeyed); if the common prefix covers the
shorter side, delegate to `apply_unkeyed` over the full slices; otherwise run
the slow path. -/
def apply_keyed (lefts : List LNode) (rights : List RNode) (st : St) :
    Option (List RNode × St) :=
  match collect_keys LNode.key lefts, collect_keys RNode.key rights with
  | some lefts_keys, some rights_keys =>
    if matching_len lefts_keys rights_keys = min lefts.length rights.length then
      some (apply_unkeyed lefts rights st)
    else
      some (apply_keyed_slow lefts rights lefts_keys rights_keys st)
  | _, _ => none

/-- The `VList` struct: children, the cached `fully_keyed` flag, and the
list's own key. -/
structure VList where
  children : List LNode
  fully_keyed : Bool
  key : Option Nat
deriving DecidableEq, Repr

/-- `VNode::has_key` for a child node. -/
def LNode.has_key (l : LNode) : Bool := l.key.isSome

/-- `VList::new`: empty, vacuously fully keyed. -/
def VList.new : VList := ⟨[], true, none⟩

/-- `VList::with_children`. -/
def VList.with_children (children : List LNode) (key : Option Nat) : VList :=
  ⟨children, children.all fun ch => ch.has_key, key⟩

/-- `VList::add_child`. -/
def VList.add_child (self : VList) (child : LNode) : VList :=
  { self with
    fully_keyed := if self.fully_keyed && !child.has_key then false
                   else self.fully_keyed,
    children := self.children ++ [child] }

/-- `VList::add_children`. -/
def VList.add_children (self : VList) (children : List LNode) : VList :=
  children.foldl VList.add_child self

/-- `VList::recheck_fully_keyed`. -/
def VList.recheck_fully_keyed (self : VList) : VList :=
  { self with fully_keyed := self.children.all fun ch => ch.has_key }

/-- The effect of `<VList as DerefMut>::deref_mut` on the cached flag: the
caller might change keys, so the flag is defensively cleared. -/
def VList.deref_mut (self : VList) : VList :=
  { self with fully_keyed := false }

/-- `VText::new("")` as a child node: an empty text node, which has no key. -/
def vtext_empty : LNode := ⟨none⟩

/-- The ancestor (previously rendered) node handed to `VList::apply`: either a
prior `VNode::VList` or some other single rendered node. -/
inductive VNodeA where
  | vlist (children : List RNode) (fully_keyed : Bool) (key : Option Nat)
  | node (key : Option Nat) (inst : Nat)
deriving DecidableEq, Repr

/-- Normalisation of the right-hand side in `VList::apply` (lines 350-363): a
prior `VList` contributes its children and its cached flag; any other node is
wrapped as a singleton with its own `has_key`; no ancestor yields an empty,
vacuously fully keyed list. -/
def normalize_ancestor : Option VNodeA → List RNode × Bool
  | some (.vlist cs fk _) => (cs, fk)
  | some (.node k i) => ([⟨k, i⟩], k.isSome)
  | none => ([], true)

/-- The empty-sequence placeholder step of `VList::apply` (lines 342-347): a
childless list stakes out its place with one empty text node. -/
def VList.with_placeholder (self : VList) : VList :=
  if self.children.isEmpty then self.add_child vtext_empty else self

/-- `<VList as VDiff>::apply` (vlist.rs lines 326-376): add the placeholder if
childless, normalise the ancestor, and dispatch on the two `fully_keyed`
flags.  Returns the rendered children and the final state (whose anchor is the
returned `NodeRef`). -/
def VList.apply (self : VList) (ancestor : Option VNodeA) (st : St) :
    Option (List RNode × St) :=
  let self' := self.with_placeholder
  let nr := normalize_ancestor ancestor
  if self'.fully_keyed && nr.2 then
    apply_keyed self'.children nr.1 st
  else
    some (apply_unkeyed self'.children nr.1 st)

/-! ## Basic list facts -/

theorem zip_reverse_eq {α β : Type} (as : List α) (bs : List β)
    (h : as.length = bs.length) :
    as.reverse.zip bs.reverse = (as.zip bs).reverse := by
  induction as generalizing bs with
  | nil =>
    have : bs = [] := List.length_eq_zero.mp (by simpa using h.symm)
    simp [this]
  | cons a as ih =>
    cases bs with
    | nil => simp at h
    | cons b bs =>
      have hl : as.length = bs.length := by simpa using h
      simp only [List.reverse_cons, List.zip_cons_cons]
      rw [List.zip_append (by simpa using hl), ih bs hl]
      simp

/-! ## Container (`insert_before`, `erase`) facts -/

theorem mem_insert_before (dom : List Nat) (i x : Nat) (a : Option Nat) :
    x ∈ insert_before dom i a ↔ x ∈ dom ∨ x = i := by
  cases a with
  | none => simp [insert_before]
  | some a =>
    induction dom with
    | nil => simp [insert_before]
    | cons y ys ih =>
      by_cases hy : y = a
      · simp [insert_before, hy]
        tauto
      · simp only [insert_before, if_neg hy, List.mem_cons]
        rw [ih]
        tauto

theorem nodup_insert_before (dom : List Nat) (i : Nat) (a : Option Nat)
    (hn : dom.Nodup) (hi : i ∉ dom) : (insert_before dom i a).Nodup := by
  cases a with
  | none =>
    simp only [insert_before]
    exact hn.append (List.nodup_singleton i) (by simpa using hi)
  | some a =>
    induction dom with
    | nil => simp [insert_before]
    | cons y ys ih =>
      rw [List.nodup_cons] at hn
      have hiy : i ∉ ys := fun hm => hi (List.mem_cons_of_mem _ hm)
      by_cases hy : y = a
      · simp only [insert_before, if_pos hy]
        refine List.nodup_cons.mpr ⟨?_, List.nodup_cons.mpr ⟨hn.1, hn.2⟩⟩
        simp only [List.mem_cons]
        rintro (rfl | hm)
        · exact hi (List.mem_cons_self _ _)
        · exact hiy hm
      · simp only [insert_before, if_neg hy]
        refine List.nodup_cons.mpr ⟨?_, ih hn.2 hiy⟩
        intro hm
        rcases (mem_insert_before ys i y (some a)).mp hm with hm | rfl
        · exact hn.1 hm
        · exact hi (List.mem_cons_self _ _)

/-! ## Well-formedness of the render-target state -/

/-- The container holds pairwise distinct instances, all below the fresh
counter. -/
def Wf (st : St) : Prop := st.dom.Nodup ∧ ∀ x ∈ st.dom, x < st.fresh

theorem wf_writer_add (st : St) (l : LNode) (h : Wf st) :
    Wf (writer_add st l).1 := by
  obtain ⟨hn, hb⟩ := h
  constructor
  · exact nodup_insert_before _ _ _ hn (fun hm => lt_irrefl _ (hb _ hm))
  · intro x hx
    rcases (mem_insert_before _ _ _ _).mp hx with hx | rfl
    · exact Nat.lt_succ_of_lt (hb _ hx)
    · exact Nat.lt_succ_self _

theorem mem_dom_writer_add (st : St) (l : LNode) (x : Nat) :
    x ∈ (writer_add st l).1.dom ↔ x ∈ st.dom ∨ x = st.fresh :=
  mem_insert_before _ _ _ _

theorem wf_move_before (st : St) (r : RNode) (h : Wf st)
    (hr : r.inst < st.fresh) : Wf (move_before st r) := by
  obtain ⟨hn, hb⟩ := h
  constructor
  · exact nodup_insert_before _ _ _ (hn.erase _)
      (List.Nodup.not_mem_erase hn)
  · intro x hx
    rcases (mem_insert_before _ _ _ _).mp hx with hx | rfl
    · exact hb _ (List.mem_of_mem_erase hx)
    · exact hr

theorem mem_dom_move_before (st : St) (r : RNode) (x : Nat) (hn : st.dom.Nodup) :
    x ∈ (move_before st r).dom ↔ x ∈ st.dom ∨ x = r.inst := by
  unfold move_before
  rw [mem_insert_before]
  constructor
  · rintro (hx | rfl)
    · exact Or.inl (List.mem_of_mem_erase hx)
    · exact Or.inr rfl
  · rintro (hx | rfl)
    · by_cases hxr : x = r.inst
      · exact Or.inr hxr
      · exact Or.inl ((List.Nodup.mem_erase_iff hn).mpr ⟨hxr, hx⟩)
    · exact Or.inr rfl

theorem wf_detach_node (st : St) (r : RNode) (h : Wf st) :
    Wf (detach_node st r) :=
  ⟨h.1.erase _, fun x hx => h.2 x (List.mem_of_mem_erase hx)⟩

theorem wf_writer_patch (st : St) (l : LNode) (r : RNode) (h : Wf st) :
    Wf (writer_patch st l r).1 := h

/-! ## Phase characterisations -/

theorem patch_all_eq (ps : List (LNode × RNode)) (st : St) :
    patch_all ps st =
      (ps.map fun p => ⟨p.1.key, p.2.inst⟩,
       { st with
         anchor := ps.foldl (fun _ p => some p.2.inst) st.anchor,
         ops := st.ops ++ ps.map fun p => Op.patch p.2.inst }) := by
  induction ps generalizing st with
  | nil => simp [patch_all]
  | cons p ps ih => simp [patch_all, writer_patch, ih]

theorem patch_all_dom (ps : List (LNode × RNode)) (st : St) :
    (patch_all ps st).2.dom = st.dom := by simp [patch_all_eq]

theorem patch_all_fresh (ps : List (LNode × RNode)) (st : St) :
    (patch_all ps st).2.fresh = st.fresh := by simp [patch_all_eq]

theorem patch_all_ops (ps : List (LNode × RNode)) (st : St) :
    (patch_all ps st).2.ops = st.ops ++ ps.map fun p => Op.patch p.2.inst := by
  simp [patch_all_eq]

theorem add_all_length (ls : List LNode) (st : St) :
    (add_all ls st).1.length = ls.length := by
  induction ls generalizing st with
  | nil => simp [add_all]
  | cons l ls ih => simp [add_all, ih]

theorem add_all_get (ls : List LNode) (st : St) (i : Nat) (hi : i < ls.length) :
    (add_all ls st).1[i]? = some ⟨ls[i].key, st.fresh + i⟩ := by
  induction ls generalizing st i with
  | nil => simp at hi
  | cons l ls ih =>
    cases i with
    | zero => simp [add_all, writer_add]
    | succ i =>
      have hi' : i < ls.length := Nat.lt_of_succ_lt_succ hi
      simp only [add_all, List.getElem?_cons_succ]
      rw [ih _ i hi']
      simp [writer_add, Nat.add_assoc, Nat.add_comm 1 i]

theorem add_all_fresh (ls : List LNode) (st : St) :
    (add_all ls st).2.fresh = st.fresh + ls.length := by
  induction ls generalizing st with
  | nil => simp [add_all]
  | cons l ls ih =>
    simp [add_all, ih, writer_add, Nat.add_assoc, Nat.add_comm 1]

theorem add_all_mem_dom (ls : List LNode) (st : St) (x : Nat) :
    x ∈ (add_all ls st).2.dom ↔
      x ∈ st.dom ∨ (st.fresh ≤ x ∧ x < st.fresh + ls.length) := by
  induction ls generalizing st with
  | nil =>
    simp only [add_all, List.length_nil, Nat.add_zero]
    constructor
    · exact Or.inl
    · rintro (h | ⟨h1, h2⟩)
      · exact h
      · exact absurd h1 (Nat.not_le_of_lt h2)
  | cons l ls ih =>
    simp only [add_all]
    rw [ih]
    rw [mem_dom_writer_add]
    simp only [writer_add, List.length_cons]
    constructor
    · rintro ((hx | rfl) | ⟨h1, h2⟩)
      · exact Or.inl hx
      · exact Or.inr ⟨Nat.le_refl _, by omega⟩
      · exact Or.inr ⟨by omega, by omega⟩
    · rintro (hx | ⟨h1, h2⟩)
      · exact Or.inl (Or.inl hx)
      · by_cases hxf : x = st.fresh
        · exact Or.inl (Or.inr hxf)
        · exact Or.inr ⟨by omega, by omega⟩

theorem add_all_ops_mono (ls : List LNode) (st : St) (o : Op)
    (ho : o ∈ st.ops) : o ∈ (add_all ls st).2.ops := by
  induction ls generalizing st with
  | nil => exact ho
  | cons l ls ih =>
    exact ih _ (by simp [writer_add, List.mem_append]; exact Or.inl ho)

theorem add_all_create_mem (ls : List LNode) (st : St) (i : Nat)
    (hi : i < ls.length) :
    ∃ a, Op.create (st.fresh + i) a ∈ (add_all ls st).2.ops := by
  induction ls generalizing st i with
  | nil => simp at hi
  | cons l ls ih =>
    cases i with
    | zero =>
      simp only [add_all, Nat.add_zero]
      refine ⟨st.anchor, add_all_ops_mono ls (writer_add st l).1 _ ?_⟩
      simp [writer_add]
    | succ i =>
      have hi' : i < ls.length := Nat.lt_of_succ_lt_succ hi
      obtain ⟨a, ha⟩ := ih ((writer_add st l).1) i hi'
      refine ⟨a, ?_⟩
      simpa [writer_add, Nat.add_assoc, Nat.add_comm 1 i] using ha

theorem add_all_wf (ls : List LNode) (st : St) (h : Wf st) :
    Wf (add_all ls st).2 := by
  induction ls generalizing st with
  | nil => exact h
  | cons l ls ih => exact ih _ (wf_writer_add st l h)

theorem detach_all_dom_sub (rs : List RNode) (st : St) (x : Nat)
    (hx : x ∈ (detach_all rs st).dom) : x ∈ st.dom := by
  induction rs generalizing st with
  | nil => exact hx
  | cons r rs ih =>
    exact List.mem_of_mem_erase (ih _ hx)

theorem detach_all_not_mem (rs : List RNode) (st : St) (x : Nat)
    (hx : x ∉ st.dom) : x ∉ (detach_all rs st).dom :=
  fun hm => hx (detach_all_dom_sub rs st x hm)

theorem detach_all_wf (rs : List RNode) (st : St) (h : Wf st) :
    Wf (detach_all rs st) := by
  induction rs generalizing st with
  | nil => exact h
  | cons r rs ih => exact ih _ (wf_detach_node st r h)

theorem detach_all_fresh (rs : List RNode) (st : St) :
    (detach_all rs st).fresh = st.fresh := by
  induction rs generalizing st with
  | nil => rfl
  | cons r rs ih => simp [detach_all, ih, detach_node]

theorem detach_all_ops_mono (rs : List RNode) (st : St) (o : Op)
    (ho : o ∈ st.ops) : o ∈ (detach_all rs st).ops := by
  induction rs generalizing st with
  | nil => exact ho
  | cons r rs ih =>
    exact ih _ (by simp [detach_node]; exact Or.inl ho)

theorem detach_all_detach_mem (rs : List RNode) (st : St) (r : RNode)
    (hr : r ∈ rs) : Op.detach r.inst ∈ (detach_all rs st).ops := by
  induction rs generalizing st with
  | nil => simp at hr
  | cons r' rs ih =>
    simp only [detach_all]
    rcases List.mem_cons.mp hr with rfl | hr
    · exact detach_all_ops_mono rs (detach_node st r) _ (by simp [detach_node])
    · exact ih _ hr

theorem detach_all_kills (rs : List RNode) (st : St) (r : RNode)
    (hn : st.dom.Nodup) (hr : r ∈ rs) : r.inst ∉ (detach_all rs st).dom := by
  induction rs generalizing st with
  | nil => simp at hr
  | cons r' rs ih =>
    simp only [detach_all]
    rcases List.mem_cons.mp hr with rfl | hr
    · exact detach_all_not_mem rs (detach_node st r) _
        (List.Nodup.not_mem_erase hn)
    · exact ih _ (hn.erase _) hr

/-! ## The unkeyed reconciler equals its specification -/

theorem apply_unkeyed_eq_spec (news : List LNode) (olds : List RNode) (st : St) :
    apply_unkeyed news olds st = unkeyed_spec news olds st := by
  unfold apply_unkeyed unkeyed_spec
  by_cases h : olds.length ≤ news.length
  · simp only [if_pos h]
    have h1 : news.reverse.take (news.length - olds.length) =
        (news.drop olds.length).reverse := by
      rw [List.take_reverse, Nat.sub_sub_self h]
    have h2 : news.reverse.drop (news.length - olds.length) =
        (news.take olds.length).reverse := by
      rw [List.drop_reverse, Nat.sub_sub_self h]
    rw [h1, h2, zip_reverse_eq _ _ (by simp [Nat.min_eq_left h])]
  · simp only [if_neg h]
    have h' : news.length ≤ olds.length := Nat.le_of_not_le h
    have h1 : olds.reverse.take (olds.length - news.length) =
        (olds.drop news.length).reverse := by
      rw [List.take_reverse, Nat.sub_sub_self h']
    have h2 : olds.reverse.drop (olds.length - news.length) =
        (olds.take news.length).reverse := by
      rw [List.drop_reverse, Nat.sub_sub_self h']
    rw [h1, h2, zip_reverse_eq _ _ (by simp [Nat.min_eq_left h'])]

/-! ## Key extraction and `matching_len` -/

theorem collect_keys_length {α : Type} (f : α → Option Nat) (ls : List α)
    (ks : List Nat) (h : collect_keys f ls = some ks) : ks.length = ls.length := by
  induction ls generalizing ks with
  | nil => simp [collect_keys] at h; simp [← h]
  | cons a l ih =>
    cases hfa : f a with
    | none => simp [collect_keys, hfa] at h
    | some k =>
      cases hcl : collect_keys f l with
      | none => simp [collect_keys, hfa, hcl] at h
      | some ks' =>
        simp only [collect_keys, hfa, hcl] at h
        cases h
        simp [ih ks' hcl]

theorem collect_keys_get {α : Type} (f : α → Option Nat) (ls : List α)
    (ks : List Nat) (h : collect_keys f ls = some ks) (i : Nat)
    (hi : i < ls.length) :
    f (ls[i]) = ks[i]? := by
  induction ls generalizing ks i with
  | nil => simp at hi
  | cons a l ih =>
    cases hfa : f a with
    | none => simp [collect_keys, hfa] at h
    | some k =>
      cases hcl : collect_keys f l with
      | none => simp [collect_keys, hfa, hcl] at h
      | some ks' =>
        simp only [collect_keys, hfa, hcl] at h
        cases h
        cases i with
        | zero => simpa using hfa
        | succ i => simpa using ih ks' hcl i (Nat.lt_of_succ_lt_succ hi)

theorem matching_len_nil_right (a : List Nat) : matching_len a [] = 0 := by
  cases a <;> rfl

theorem matching_len_cons (x y : Nat) (a b : List Nat) :
    matching_len (x :: a) (y :: b) =
      if x = y then matching_len a b + 1 else 0 := by
  simp only [matching_len, List.zip_cons_cons, List.takeWhile_cons]
  by_cases h : x = y <;> simp [h]

theorem matching_len_le (a b : List Nat) :
    matching_len a b ≤ min a.length b.length := by
  induction a generalizing b with
  | nil => simp [matching_len]
  | cons x a ih =>
    cases b with
    | nil => simp [matching_len_nil_right]
    | cons y b =>
      rw [matching_len_cons]
      by_cases h : x = y
      · have := ih b
        simp only [if_pos h, List.length_cons]
        omega
      · simp [if_neg h]

theorem matching_len_get (a b : List Nat) (i : Nat)
    (h : i < matching_len a b) : a[i]? = b[i]? := by
  induction a generalizing b i with
  | nil => simp [matching_len] at h
  | cons x a ih =>
    cases b with
    | nil => rw [matching_len_nil_right] at h; omega
    | cons y b =>
      rw [matching_len_cons] at h
      by_cases hxy : x = y
      · rw [if_pos hxy] at h
        cases i with
        | zero => simp [hxy]
        | succ i => simpa using ih b i (by omega)
      · rw [if_neg hxy] at h; omega

/-! ## Lookup-map facts -/

theorem aRemove_fst (m : KMap) (k : Nat) : (aRemove m k).1 = aFind m k := by
  induction m with
  | nil => rfl
  | cons e m ih => by_cases h : e.1 = k <;> simp [aRemove, aFind, h, ih]

theorem aRemove_none (m : KMap) (k : Nat) (h : aFind m k = none) :
    (aRemove m k).2 = m := by
  induction m with
  | nil => rfl
  | cons e m ih =>
    by_cases he : e.1 = k
    · simp [aFind, he] at h
    · simp only [aFind, if_neg he] at h
      simp [aRemove, he, ih h]

theorem aFind_aRemove_ne (m : KMap) (k k' : Nat) (h : k' ≠ k) :
    aFind (aRemove m k).2 k' = aFind m k' := by
  induction m with
  | nil => rfl
  | cons e m ih =>
    by_cases he : e.1 = k
    · simp only [aRemove, if_pos he, aFind]
      rw [if_neg (by rw [he]; exact fun hk => h hk.symm)]
    · by_cases he' : e.1 = k'
      · simp [aRemove, he, aFind, he', h]
      · simp [aRemove, he, aFind, he', ih]

theorem mem_aRemove (m : KMap) (k : Nat) (e : Nat × (RNode × Option Nat))
    (he : e ∈ (aRemove m k).2) : e ∈ m := by
  induction m with
  | nil => simp [aRemove] at he
  | cons e' m ih =>
    by_cases h : e'.1 = k
    · simp only [aRemove, if_pos h] at he
      exact List.mem_cons_of_mem _ he
    · simp only [aRemove, if_neg h, List.mem_cons] at he
      rcases he with rfl | he
      · exact List.mem_cons_self _ _
      · exact List.mem_cons_of_mem _ (ih he)

theorem mem_aRemove_of_ne (m : KMap) (k : Nat) (e : Nat × (RNode × Option Nat))
    (he : e ∈ m) (hne : e.1 ≠ k) : e ∈ (aRemove m k).2 := by
  induction m with
  | nil => simp at he
  | cons e' m ih =>
    by_cases h : e'.1 = k
    · simp only [aRemove, if_pos h]
      rcases List.mem_cons.mp he with rfl | he
      · exact absurd h hne
      · exact he
    · simp only [aRemove, if_neg h, List.mem_cons]
      rcases List.mem_cons.mp he with rfl | he
      · exact Or.inl rfl
      · exact Or.inr (ih he)

theorem aFind_mem (m : KMap) (k : Nat) (v : RNode × Option Nat)
    (h : aFind m k = some v) : (k, v) ∈ m := by
  induction m with
  | nil => simp [aFind] at h
  | cons e m ih =>
    by_cases he : e.1 = k
    · simp only [aFind, if_pos he] at h
      cases h
      rcases e with ⟨ek, ev⟩
      cases he
      exact List.mem_cons_self _ _
    · simp only [aFind, if_neg he] at h
      exact List.mem_cons_of_mem _ (ih h)

/-! ## The lookup map built by the middle pass -/

theorem annotateP_keys (l : List (Nat × RNode)) (fin : Option Nat) :
    (annotateP l fin).map Prod.fst = l.map Prod.fst := by
  induction l with
  | nil => rfl
  | cons p l ih => simp [annotateP, ih]

theorem annotateP_node_mem (l : List (Nat × RNode)) (fin : Option Nat)
    (e : Nat × (RNode × Option Nat)) (he : e ∈ annotateP l fin) :
    (e.1, e.2.1) ∈ l := by
  induction l with
  | nil => simp [annotateP] at he
  | cons p l ih =>
    simp only [annotateP, List.mem_cons] at he
    rcases he with rfl | he
    · exact List.mem_cons_self _ _
    · exact List.mem_cons_of_mem _ (ih he)

theorem aFind_annotateP_none (l : List (Nat × RNode)) (fin : Option Nat)
    (k : Nat) (hk : k ∉ l.map Prod.fst) : aFind (annotateP l fin) k = none := by
  induction l with
  | nil => rfl
  | cons p l ih =>
    simp only [List.map_cons, List.mem_cons] at hk
    push_neg at hk
    simp only [annotateP, aFind]
    rw [if_neg fun h => hk.1 h.symm]
    exact ih hk.2

theorem aFind_annotateP_some (l : List (Nat × RNode)) (fin : Option Nat)
    (k : Nat) (v : RNode) (hnd : (l.map Prod.fst).Nodup) (hm : (k, v) ∈ l) :
    ∃ nrk, aFind (annotateP l fin) k = some (v, nrk) := by
  induction l with
  | nil => simp at hm
  | cons p l ih =>
    simp only [List.map_cons, List.nodup_cons] at hnd
    rcases List.mem_cons.mp hm with heq | hm'
    · cases heq
      exact ⟨l.head?.elim fin fun q => some q.1, by simp [annotateP, aFind]⟩
    · have hpk : p.1 ≠ k := by
        intro h
        exact hnd.1 (h ▸ List.mem_map_of_mem Prod.fst hm')
      simp only [annotateP, aFind, if_neg hpk]
      exact ih hnd.2 hm'

theorem annotateP_append_single (l : List (Nat × RNode)) (p : Nat × RNode)
    (fin : Option Nat) :
    annotateP (l ++ [p]) fin = annotateP l (some p.1) ++ [(p.1, (p.2, fin))] := by
  induction l with
  | nil => rfl
  | cons q l ih =>
    simp only [List.cons_append, annotateP, ih]
    cases l <;> simpa using ih

theorem mk_rights_diff_go_eq (l : List (Nat × RNode)) :
    ∀ (prev : Option Nat) (m : KMap),
      (l.map Prod.fst ++ m.map Prod.fst).Nodup →
      mk_rights_diff.go l.reverse prev m = annotateP l prev ++ m := by
  induction l using List.reverseRecOn with
  | nil => intro prev m _; rfl
  | append_singleton l p ih =>
    intro prev m hnd
    rw [List.reverse_append, List.reverse_singleton, List.singleton_append]
    show mk_rights_diff.go (p :: l.reverse) prev m = _
    rw [mk_rights_diff.go]
    have hfilter : (m.filter fun e => !(e.1 == p.1)) = m := by
      apply List.filter_eq_self.mpr
      intro e he
      simp only [Bool.not_eq_true', beq_eq_false_iff_ne, ne_eq]
      intro hek
      have hp : p.1 ∈ m.map Prod.fst := hek ▸ List.mem_map_of_mem Prod.fst he
      have : (l.map Prod.fst ++ [p.1]) ++ m.map Prod.fst =
          (l ++ [p]).map Prod.fst ++ m.map Prod.fst := by simp
      rw [← this] at hnd
      have hd := List.disjoint_of_nodup_append hnd
      exact hd (by simp) hp
    have hnd' : (l.map Prod.fst ++ ((p.1, (p.2, prev)) :: m).map Prod.fst).Nodup := by
      have : (l ++ [p]).map Prod.fst ++ m.map Prod.fst =
          l.map Prod.fst ++ (p.1 :: m.map Prod.fst) := by simp
      rw [this] at hnd
      simpa using hnd
    rw [show aInsert m p.1 (p.2, prev) = (p.1, (p.2, prev)) :: m from by
          simp [aInsert, hfilter]]
    rw [ih (some p.1) ((p.1, (p.2, prev)) :: m) hnd']
    rw [annotateP_append_single]
    simp

theorem mk_rights_diff_eq_annotateP (pairs : List (Nat × RNode))
    (hnd : (pairs.map Prod.fst).Nodup) :
    mk_rights_diff pairs = annotateP pairs none := by
  have := mk_rights_diff_go_eq pairs none [] (by simpa using hnd)
  simpa [mk_rights_diff] using this

/-! ## Facts about `maybe_move` and the middle pass -/

theorem maybe_move_fresh (st : St) (r : RNode) (a b : Option Nat) :
    (maybe_move st r a b).fresh = st.fresh := by
  rcases a with _ | x <;> rcases b with _ | y <;>
    simp only [maybe_move, move_before]
  split <;> rfl

theorem maybe_move_ops_mono (st : St) (r : RNode) (a b : Option Nat) (o : Op)
    (ho : o ∈ st.ops) : o ∈ (maybe_move st r a b).ops := by
  rcases a with _ | x <;> rcases b with _ | y <;>
    simp only [maybe_move, move_before] <;>
    try exact List.mem_append_left _ ho
  split
  · exact ho
  · exact List.mem_append_left _ ho

theorem wf_maybe_move (st : St) (r : RNode) (a b : Option Nat) (h : Wf st)
    (hr : r.inst < st.fresh) : Wf (maybe_move st r a b) := by
  rcases a with _ | x <;> rcases b with _ | y <;>
    simp only [maybe_move] <;> try exact wf_move_before st r h hr
  split
  · exact h
  · exact wf_move_before st r h hr

/-- One step of the middle pass when the new key is found in the map. -/
theorem apply_keyed_mid_found (lk : Nat) (l : LNode) (rest : List (Nat × LNode))
    (nlk : Option Nat) (m : KMap) (st : St) (r : RNode) (nrk : Option Nat)
    (h : aFind m lk = some (r, nrk)) :
    apply_keyed_mid ((lk, l) :: rest) nlk m st =
      (let st1 := maybe_move st r nrk nlk
       let q := writer_patch st1 l r
       let w := apply_keyed_mid rest (some lk) (aRemove m lk).2 q.1
       (q.2 :: w.1, w.2.1, w.2.2)) := by
  have h1 : (aRemove m lk).1 = some (r, nrk) := by rw [aRemove_fst]; exact h
  have hrem : aRemove m lk = (some (r, nrk), (aRemove m lk).2) := by
    rw [← h1]
  conv_lhs => rw [apply_keyed_mid, hrem]

/-- One step of the middle pass when the new key is absent from the map. -/
theorem apply_keyed_mid_absent (lk : Nat) (l : LNode) (rest : List (Nat × LNode))
    (nlk : Option Nat) (m : KMap) (st : St) (h : aFind m lk = none) :
    apply_keyed_mid ((lk, l) :: rest) nlk m st =
      (let q := writer_add st l
       let w := apply_keyed_mid rest (some lk) m q.1
       (q.2 :: w.1, w.2.1, w.2.2)) := by
  have h1 : (aRemove m lk).1 = none := by rw [aRemove_fst]; exact h
  have h2 := aRemove_none m lk h
  have hrem : aRemove m lk = (none, m) := by
    have heta : aRemove m lk = ((aRemove m lk).1, (aRemove m lk).2) := rfl
    rw [heta, h1, h2]
  conv_lhs => rw [apply_keyed_mid, hrem]

theorem mid_length (ps : List (Nat × LNode)) (nlk : Option Nat) (m : KMap)
    (st : St) : (apply_keyed_mid ps nlk m st).1.length = ps.length := by
  induction ps generalizing nlk m st with
  | nil => rfl
  | cons p rest ih =>
    obtain ⟨lk, l⟩ := p
    cases hfind : aFind m lk with
    | some v =>
      obtain ⟨r, nrk⟩ := v
      rw [apply_keyed_mid_found lk l rest nlk m st r nrk hfind]
      simp [ih]
    | none =>
      rw [apply_keyed_mid_absent lk l rest nlk m st hfind]
      simp [ih]

theorem mid_ops_mono (ps : List (Nat × LNode)) (nlk : Option Nat) (m : KMap)
    (st : St) (o : Op) (ho : o ∈ st.ops) :
    o ∈ (apply_keyed_mid ps nlk m st).2.2.ops := by
  induction ps generalizing nlk m st with
  | nil => exact ho
  | cons p rest ih =>
    obtain ⟨lk, l⟩ := p
    cases hfind : aFind m lk with
    | some v =>
      obtain ⟨r, nrk⟩ := v
      rw [apply_keyed_mid_found lk l rest nlk m st r nrk hfind]
      exact ih _ _ _
        (List.mem_append_left _ (maybe_move_ops_mono st r nrk nlk o ho))
    | none =>
      rw [apply_keyed_mid_absent lk l rest nlk m st hfind]
      exact ih _ _ _ (List.mem_append_left _ ho)

theorem mid_fresh_mono (ps : List (Nat × LNode)) (nlk : Option Nat) (m : KMap)
    (st : St) : st.fresh ≤ (apply_keyed_mid ps nlk m st).2.2.fresh := by
  induction ps generalizing nlk m st with
  | nil => exact Nat.le_refl _
  | cons p rest ih =>
    obtain ⟨lk, l⟩ := p
    cases hfind : aFind m lk with
    | some v =>
      obtain ⟨r, nrk⟩ := v
      rw [apply_keyed_mid_found lk l rest nlk m st r nrk hfind]
      have := ih (some lk) (aRemove m lk).2 (writer_patch (maybe_move st r nrk nlk) l r).1
      simpa [writer_patch, maybe_move_fresh] using this
    | none =>
      rw [apply_keyed_mid_absent lk l rest nlk m st hfind]
      have := ih (some lk) m (writer_add st l).1
      simp only [writer_add] at this
      exact Nat.le_trans (Nat.le_succ _) this

theorem mid_wf (ps : List (Nat × LNode)) (nlk : Option Nat) (m : KMap)
    (st : St) (h : Wf st) (hm : ∀ e ∈ m, e.2.1.inst < st.fresh) :
    Wf (apply_keyed_mid ps nlk m st).2.2 := by
  induction ps generalizing nlk m st with
  | nil => exact h
  | cons p rest ih =>
    obtain ⟨lk, l⟩ := p
    cases hfind : aFind m lk with
    | some v =>
      obtain ⟨r, nrk⟩ := v
      rw [apply_keyed_mid_found lk l rest nlk m st r nrk hfind]
      have hr : r.inst < st.fresh := hm (lk, (r, nrk)) (aFind_mem m lk _ hfind)
      refine ih _ _ _ (wf_writer_patch _ l r (wf_maybe_move st r nrk nlk h hr)) ?_
      intro e he
      have : e ∈ m := mem_aRemove m lk e he
      have := hm e this
      simpa [writer_patch, maybe_move_fresh] using this
    | none =>
      rw [apply_keyed_mid_absent lk l rest nlk m st hfind]
      refine ih _ _ _ (wf_writer_add st l h) ?_
      intro e he
      have := hm e he
      simp only [writer_add]
      omega

theorem mid_map_sub (ps : List (Nat × LNode)) (nlk : Option Nat) (m : KMap)
    (st : St) (e : Nat × (RNode × Option Nat))
    (he : e ∈ (apply_keyed_mid ps nlk m st).2.1) : e ∈ m := by
  induction ps generalizing nlk m st with
  | nil => exact he
  | cons p rest ih =>
    obtain ⟨lk, l⟩ := p
    cases hfind : aFind m lk with
    | some v =>
      obtain ⟨r, nrk⟩ := v
      rw [apply_keyed_mid_found lk l rest nlk m st r nrk hfind] at he
      exact mem_aRemove m lk e (ih _ _ _ he)
    | none =>
      rw [apply_keyed_mid_absent lk l rest nlk m st hfind] at he
      exact ih _ _ _ he

theorem mid_map_keep (ps : List (Nat × LNode)) (nlk : Option Nat) (m : KMap)
    (st : St) (e : Nat × (RNode × Option Nat)) (he : e ∈ m)
    (hk : e.1 ∉ ps.map Prod.fst) : e ∈ (apply_keyed_mid ps nlk m st).2.1 := by
  induction ps generalizing nlk m st with
  | nil => exact he
  | cons p rest ih =>
    obtain ⟨lk, l⟩ := p
    simp only [List.map_cons, List.mem_cons] at hk
    push_neg at hk
    cases hfind : aFind m lk with
    | some v =>
      obtain ⟨r, nrk⟩ := v
      rw [apply_keyed_mid_found lk l rest nlk m st r nrk hfind]
      exact ih _ _ _ (mem_aRemove_of_ne m lk e he hk.1) hk.2
    | none =>
      rw [apply_keyed_mid_absent lk l rest nlk m st hfind]
      exact ih _ _ _ he hk.2

/-- Elementwise outcome of the middle pass, under unique new-middle keys: the
node rendered for pair `i` keeps the new node's key; if the key is in the map
it is patched onto the recovered old instance, otherwise it is created fresh. -/
theorem mid_assigned (ps : List (Nat × LNode)) (nlk : Option Nat) (m : KMap)
    (st : St) (hnd : (ps.map Prod.fst).Nodup) (i : Nat) (p : Nat × LNode)
    (hp : ps[i]? = some p) :
    ∃ a, (apply_keyed_mid ps nlk m st).1[i]? = some a ∧ a.key = p.2.key ∧
      ((∃ r nrk, aFind m p.1 = some (r, nrk) ∧ a.inst = r.inst ∧
          Op.patch r.inst ∈ (apply_keyed_mid ps nlk m st).2.2.ops) ∨
       (aFind m p.1 = none ∧ st.fresh ≤ a.inst ∧
          ∃ an, Op.create a.inst an ∈ (apply_keyed_mid ps nlk m st).2.2.ops)) := by
  induction ps generalizing nlk m st i with
  | nil => simp at hp
  | cons q rest ih =>
    obtain ⟨lk, l⟩ := q
    simp only [List.map_cons, List.nodup_cons] at hnd
    cases hfind : aFind m lk with
    | some v =>
      obtain ⟨r, nrk⟩ := v
      rw [apply_keyed_mid_found lk l rest nlk m st r nrk hfind]
      cases i with
      | zero =>
        simp only [List.getElem?_cons_zero, Option.some_inj] at hp
        subst hp
        refine ⟨⟨l.key, r.inst⟩, by simp [writer_patch], rfl, Or.inl ⟨r, nrk, hfind, rfl, ?_⟩⟩
        refine mid_ops_mono _ _ _ _ _ ?_
        simp [writer_patch]
      | succ i =>
        simp only [List.getElem?_cons_succ] at hp
        have hpm : p ∈ rest := List.getElem?_mem hp
        have hpk : p.1 ≠ lk := by
          intro hk
          exact hnd.1 (hk ▸ List.mem_map_of_mem Prod.fst hpm)
        obtain ⟨a, ha1, ha2, ha3⟩ :=
          ih (some lk) ((aRemove m lk).2)
            ((writer_patch (maybe_move st r nrk nlk) l r).1) hnd.2 i hp
        refine ⟨a, by simpa using ha1, ha2, ?_⟩
        rcases ha3 with ⟨r', nrk', hfind', hinst, hops⟩ | ⟨hfind', hfr, an, hops⟩
        · exact Or.inl ⟨r', nrk', by rw [← aFind_aRemove_ne m lk p.1 hpk]; exact hfind',
            hinst, hops⟩
        · refine Or.inr ⟨by rw [← aFind_aRemove_ne m lk p.1 hpk]; exact hfind', ?_, an, hops⟩
          have : ((writer_patch (maybe_move st r nrk nlk) l r).1).fresh = st.fresh := by
            simp [writer_patch, maybe_move_fresh]
          rw [this] at hfr
          exact hfr
    | none =>
      rw [apply_keyed_mid_absent lk l rest nlk m st hfind]
      cases i with
      | zero =>
        simp only [List.getElem?_cons_zero, Option.some_inj] at hp
        subst hp
        refine ⟨⟨l.key, st.fresh⟩, by simp [writer_add], rfl,
          Or.inr ⟨hfind, Nat.le_refl _, st.anchor, ?_⟩⟩
        refine mid_ops_mono _ _ _ _ _ ?_
        simp [writer_add]
      | succ i =>
        simp only [List.getElem?_cons_succ] at hp
        obtain ⟨a, ha1, ha2, ha3⟩ :=
          ih (some lk) m ((writer_add st l).1) hnd.2 i hp
        refine ⟨a, by simpa using ha1, ha2, ?_⟩
        rcases ha3 with ⟨r', nrk', hfind', hinst, hops⟩ | ⟨hfind', hfr, an, hops⟩
        · exact Or.inl ⟨r', nrk', hfind', hinst, hops⟩
        · refine Or.inr ⟨hfind', ?_, an, hops⟩
          have : ((writer_add st l).1).fresh = st.fresh + 1 := by simp [writer_add]
          rw [this] at hfr
          omega

theorem wf_patch_all (ps : List (LNode × RNode)) (st : St) (h : Wf st) :
    Wf (patch_all ps st).2 := by
  constructor
  · rw [patch_all_dom]; exact h.1
  · intro x hx
    rw [patch_all_dom] at hx
    rw [patch_all_fresh]
    exact h.2 x hx

theorem getElem?_zip_some {α β : Type} {l1 : List α} {l2 : List β} {i : Nat}
    {a : α} {b : β} (h1 : l1[i]? = some a) (h2 : l2[i]? = some b) :
    (l1.zip l2)[i]? = some (a, b) := by
  rw [List.getElem?_zip_eq_some]
  exact ⟨h1, h2⟩

/-- Full characterisation of the slow path of `apply_keyed`, under fully
keyed inputs with unique keys on each side and a well-formed container:
one node is rendered per new child; a key at new position `i` and old
position `j` is patched onto the instance mounted at `j`; a new-only key
is rendered with a freshly created instance; an old-only key's instance is
detached and absent from the final container. -/
theorem apply_keyed_slow_char
    (news : List LNode) (olds : List RNode) (st : St) (lk rk : List Nat)
    (hlk : collect_keys LNode.key news = some lk)
    (hrk : collect_keys RNode.key olds = some rk)
    (hlnd : lk.Nodup) (hrnd : rk.Nodup)
    (hwf : Wf st) (hbound : ∀ r ∈ olds, r.inst < st.fresh)
    (hne : matching_len lk rk ≠ min news.length olds.length) :
    (apply_keyed_slow news olds lk rk st).1.length = news.length ∧
    (∀ i j k : Nat, lk[i]? = some k → rk[j]? = some k →
      ∃ a : RNode, (apply_keyed_slow news olds lk rk st).1[i]? = some a ∧
        ∃ hj : j < olds.length, a.inst = (olds[j]).inst ∧
          Op.patch (olds[j]).inst ∈ (apply_keyed_slow news olds lk rk st).2.ops) ∧
    (∀ i k : Nat, lk[i]? = some k → k ∉ rk →
      ∃ a : RNode, (apply_keyed_slow news olds lk rk st).1[i]? = some a ∧
        st.fresh ≤ a.inst ∧
        ∃ an, Op.create a.inst an ∈ (apply_keyed_slow news olds lk rk st).2.ops) ∧
    (∀ j k : Nat, rk[j]? = some k → k ∉ lk →
      ∃ hj : j < olds.length,
        Op.detach (olds[j]).inst ∈ (apply_keyed_slow news olds lk rk st).2.ops ∧
        (olds[j]).inst ∉ (apply_keyed_slow news olds lk rk st).2.dom) := by
  have hlkn := collect_keys_length _ _ _ hlk
  have hrkn := collect_keys_length _ _ _ hrk
  set fs := matching_len lk rk with hfs_def
  set fe := matching_len (lk.drop fs).reverse (rk.drop fs).reverse with hfe_def
  set lt := news.length - fe with hlt_def
  set rt := olds.length - fe with hrt_def
  have hml := matching_len_le lk rk
  rw [hlkn, hrkn] at hml
  have hfsn : fs < news.length := by omega
  have hfsm : fs < olds.length := by omega
  have hmlfe := matching_len_le (lk.drop fs).reverse (rk.drop fs).reverse
  simp only [List.length_reverse, List.length_drop] at hmlfe
  rw [hlkn, hrkn] at hmlfe
  have hhead : ∀ i, i < fs → lk[i]? = rk[i]? := fun i hi => matching_len_get lk rk i hi
  have hsuffix : ∀ s, s < fe →
      lk[news.length - 1 - s]? = rk[olds.length - 1 - s]? := by
    intro s hs
    have h1 := matching_len_get _ _ s hs
    rw [List.getElem?_reverse (by rw [List.length_drop, hlkn]; omega),
        List.getElem?_reverse (by rw [List.length_drop, hrkn]; omega),
        List.getElem?_drop, List.getElem?_drop] at h1
    simp only [List.length_drop] at h1
    rw [hlkn, hrkn] at h1
    have e1 : fs + (news.length - fs - 1 - s) = news.length - 1 - s := by omega
    have e2 : fs + (olds.length - fs - 1 - s) = olds.length - 1 - s := by omega
    rw [e1, e2] at h1
    exact h1
  set tl := patch_all (((news.drop lt).zip (olds.drop rt)).reverse) st with htl_def
  set m0 := mk_rights_diff (((rk.drop fs).take (rt - fs)).zip
      ((olds.drop fs).take (rt - fs))) with hm0_def
  set ps := ((((lk.drop fs).take (lt - fs)).zip
      ((news.drop fs).take (lt - fs))).reverse) with hps_def
  set w := apply_keyed_mid ps none m0 tl.2 with hw_def
  set dl := w.2.1.map (fun e => e.2.1) with hdl_def
  set st3 := detach_all dl w.2.2 with hst3_def
  set hd := patch_all (((news.take fs).zip (olds.take fs)).reverse) st3 with hhd_def
  have hout1 : (apply_keyed_slow news olds lk rk st).1 =
      hd.1.reverse ++ (w.1.reverse ++ tl.1.reverse) := by
    simp only [apply_keyed_slow, hhd_def, hst3_def, hdl_def, hw_def, hps_def,
      hm0_def, htl_def, hlt_def, hrt_def, hfe_def, hfs_def, List.append_assoc]
  have hout2 : (apply_keyed_slow news olds lk rk st).2 = hd.2 := by
    simp only [apply_keyed_slow, hhd_def, hst3_def, hdl_def, hw_def, hps_def,
      hm0_def, htl_def, hlt_def, hrt_def, hfe_def, hfs_def]
  have hhd1 : hd.1 = (((news.take fs).zip (olds.take fs)).reverse).map
      (fun p => (⟨p.1.key, p.2.inst⟩ : RNode)) := by rw [hhd_def, patch_all_eq]
  have htl1 : tl.1 = (((news.drop lt).zip (olds.drop rt)).reverse).map
      (fun p => (⟨p.1.key, p.2.inst⟩ : RNode)) := by rw [htl_def, patch_all_eq]
  have hhdlen : hd.1.length = fs := by
    rw [hhd1]
    simp only [List.length_map, List.length_reverse, List.length_zip,
      List.length_take]
    omega
  have htllen : tl.1.length = fe := by
    rw [htl1]
    simp only [List.length_map, List.length_reverse, List.length_zip,
      List.length_drop]
    omega
  have hw1len : w.1.length = lt - fs := by
    rw [hw_def, mid_length, hps_def]
    simp only [List.length_reverse, List.length_zip, List.length_take,
      List.length_drop]
    omega
  have hhdrev : hd.1.reverse = ((news.take fs).zip (olds.take fs)).map
      (fun p => (⟨p.1.key, p.2.inst⟩ : RNode)) := by
    rw [hhd1, List.reverse_map, List.reverse_reverse]
  have htlrev : tl.1.reverse = ((news.drop lt).zip (olds.drop rt)).map
      (fun p => (⟨p.1.key, p.2.inst⟩ : RNode)) := by
    rw [htl1, List.reverse_map, List.reverse_reverse]
  have hops_mono3 : ∀ o : Op, o ∈ w.2.2.ops → o ∈ hd.2.ops := by
    intro o ho
    rw [hhd_def, patch_all_ops]
    refine List.mem_append_left _ ?_
    rw [hst3_def]
    exact detach_all_ops_mono _ _ _ ho
  have hops_mono2 : ∀ o : Op, o ∈ tl.2.ops → o ∈ hd.2.ops := fun o ho =>
    hops_mono3 o (by rw [hw_def]; exact mid_ops_mono _ _ _ _ _ ho)
  have htlfresh : tl.2.fresh = st.fresh := by rw [htl_def, patch_all_fresh]
  have hwf_tl : Wf tl.2 := by rw [htl_def]; exact wf_patch_all _ _ hwf
  have hmidkeys : ((rk.drop fs).take (rt - fs)).Nodup :=
    ((List.take_sublist _ _).trans (List.drop_sublist _ _)).nodup hrnd
  have hm0keys : ((((rk.drop fs).take (rt - fs)).zip
      ((olds.drop fs).take (rt - fs))).map Prod.fst)
      = (rk.drop fs).take (rt - fs) :=
    List.map_fst_zip _ _ (by
      simp only [List.length_take, List.length_drop]
      omega)
  have hm0eq : m0 = annotateP (((rk.drop fs).take (rt - fs)).zip
      ((olds.drop fs).take (rt - fs))) none := by
    rw [hm0_def]
    exact mk_rights_diff_eq_annotateP _ (by rw [hm0keys]; exact hmidkeys)
  have hm0bound : ∀ e ∈ m0, e.2.1.inst < tl.2.fresh := by
    intro e he
    rw [hm0eq] at he
    have h2 := annotateP_node_mem _ _ _ he
    have h3 := (List.mem_zip h2).2
    have h4 : e.2.1 ∈ olds := List.mem_of_mem_drop (List.mem_of_mem_take h3)
    rw [htlfresh]
    exact hbound _ h4
  have hwfw : Wf w.2.2 := by rw [hw_def]; exact mid_wf _ _ _ _ hwf_tl hm0bound
  have hpskeys : ps.map Prod.fst = ((lk.drop fs).take (lt - fs)).reverse := by
    rw [hps_def, ← List.reverse_map,
      List.map_fst_zip _ _ (by
        simp only [List.length_take, List.length_drop]
        omega)]
  have hpsnd : (ps.map Prod.fst).Nodup := by
    rw [hpskeys, List.nodup_reverse]
    exact ((List.take_sublist _ _).trans (List.drop_sublist _ _)).nodup hlnd
  have hplen : ps.length = lt - fs := by
    rw [hps_def]
    simp only [List.length_reverse, List.length_zip, List.length_take,
      List.length_drop]
    omega
  have hAlen : hd.1.reverse.length = fs := by rw [List.length_reverse, hhdlen]
  have hBlen : w.1.reverse.length = lt - fs := by
    rw [List.length_reverse, hw1len]
  refine ⟨?_, ?_, ?_, ?_⟩
  · rw [hout1]
    simp only [List.length_append, List.length_reverse, hhdlen, htllen, hw1len]
    omega
  · intro i j k hik hjk
    obtain ⟨hi, hik'⟩ := List.getElem?_eq_some.mp hik
    obtain ⟨hj, hjk'⟩ := List.getElem?_eq_some.mp hjk
    have hi' : i < news.length := by omega
    have hj' : j < olds.length := by omega
    rcases Nat.lt_or_ge i fs with hifs | hifs
    · -- common prefix zone: j = i, patched by the head pass
      have h1 : rk[i]? = some k := by rw [← hhead i hifs]; exact hik
      obtain ⟨hi2, h1'⟩ := List.getElem?_eq_some.mp h1
      have hij : i = j := (List.Nodup.getElem_inj_iff hrnd).mp (by rw [h1', hjk'])
      subst hij
      have hz : ((news.take fs).zip (olds.take fs))[i]? =
          some (news[i], olds[i]) :=
        getElem?_zip_some
          (by rw [List.getElem?_take_of_lt hifs]; exact List.getElem?_eq_getElem hi')
          (by rw [List.getElem?_take_of_lt hifs]; exact List.getElem?_eq_getElem hj')
      refine ⟨⟨(news[i]).key, (olds[i]).inst⟩, ?_, hj', rfl, ?_⟩
      · rw [hout1, List.getElem?_append_left (by rw [hAlen]; omega), hhdrev,
          List.getElem?_map, hz]
        rfl
      · rw [hout2, hhd_def, patch_all_ops]
        refine List.mem_append_right _ ?_
        rw [List.mem_map]
        exact ⟨(news[i], olds[i]),
          by rw [List.mem_reverse]; exact List.getElem?_mem hz, rfl⟩
    rcases Nat.lt_or_ge i lt with hilt | hilt
    · -- middle zone
      have hjfs : fs ≤ j := by
        by_contra hjlt
        push_neg at hjlt
        have h1 : lk[j]? = some k := by rw [hhead j hjlt]; exact hjk
        obtain ⟨hj2, h1'⟩ := List.getElem?_eq_some.mp h1
        have : j = i := (List.Nodup.getElem_inj_iff hlnd).mp (by rw [h1', hik'])
        omega
      have hjrt : j < rt := by
        by_contra hge
        push_neg at hge
        have hs : olds.length - 1 - j < fe := by omega
        have h1 := hsuffix (olds.length - 1 - j) hs
        have e3 : olds.length - 1 - (olds.length - 1 - j) = j := by omega
        rw [e3] at h1
        have h2 : lk[news.length - 1 - (olds.length - 1 - j)]? = some k := by
          rw [h1]; exact hjk
        obtain ⟨hb, h2'⟩ := List.getElem?_eq_some.mp h2
        have : news.length - 1 - (olds.length - 1 - j) = i :=
          (List.Nodup.getElem_inj_iff hlnd).mp (by rw [h2', hik'])
        omega
      have hu : j - fs < rt - fs := by omega
      have hz1 : ((rk.drop fs).take (rt - fs))[j - fs]? = some k := by
        rw [List.getElem?_take_of_lt hu, List.getElem?_drop,
          show fs + (j - fs) = j from by omega]
        exact hjk
      have hz2 : ((olds.drop fs).take (rt - fs))[j - fs]? = some (olds[j]) := by
        rw [List.getElem?_take_of_lt hu, List.getElem?_drop,
          show fs + (j - fs) = j from by omega]
        exact List.getElem?_eq_getElem hj'
      have hzm := getElem?_zip_some hz1 hz2
      have hmem := List.getElem?_mem hzm
      obtain ⟨nbr, hfindm0⟩ :=
        aFind_annotateP_some _ none k _ (by rw [hm0keys]; exact hmidkeys) hmem
      have hfind : aFind m0 k = some (olds[j], nbr) := by
        rw [hm0eq]; exact hfindm0
      have hkz1 : ((lk.drop fs).take (lt - fs))[i - fs]? = some k := by
        rw [List.getElem?_take_of_lt (by omega), List.getElem?_drop,
          show fs + (i - fs) = i from by omega]
        exact hik
      have hkz2 : ((news.drop fs).take (lt - fs))[i - fs]? = some (news[i]) := by
        rw [List.getElem?_take_of_lt (by omega), List.getElem?_drop,
          show fs + (i - fs) = i from by omega]
        exact List.getElem?_eq_getElem hi'
      have hkzip := getElem?_zip_some hkz1 hkz2
      have hkziplen : (((lk.drop fs).take (lt - fs)).zip
          ((news.drop fs).take (lt - fs))).length = lt - fs := by
        simp only [List.length_zip, List.length_take, List.length_drop]
        omega
      have hp : ps[(lt - fs) - 1 - (i - fs)]? = some (k, news[i]) := by
        rw [hps_def, List.getElem?_reverse (by rw [hkziplen]; omega), hkziplen,
          show (lt - fs) - 1 - ((lt - fs) - 1 - (i - fs)) = i - fs from by omega]
        exact hkzip
      obtain ⟨a, ha1, ha2, ha3⟩ := mid_assigned ps none m0 tl.2 hpsnd _ _ hp
      rw [← hw_def] at ha1 ha3
      rcases ha3 with ⟨r', nrk', hf', hinst, hops⟩ | ⟨hf', _⟩
      · rw [hfind] at hf'
        simp only [Option.some.injEq, Prod.mk.injEq] at hf'
        obtain ⟨h9, h10⟩ := hf'
        refine ⟨a, ?_, hj', by rw [hinst, ← h9], ?_⟩
        · rw [hout1, List.getElem?_append_right (by rw [hAlen]; omega), hAlen,
            List.getElem?_append_left (by rw [hBlen]; omega),
            List.getElem?_reverse (by rw [hw1len]; omega), hw1len]
          exact ha1
        · rw [hout2]
          refine hops_mono3 _ ?_
          rw [← h9] at hops
          exact hops
      · rw [hfind] at hf'
        exact Option.noConfusion hf'
    · -- common suffix zone: j = rt + (i - lt), patched by the tail pass
      have hs : news.length - 1 - i < fe := by omega
      have h1 := hsuffix (news.length - 1 - i) hs
      have e3 : news.length - 1 - (news.length - 1 - i) = i := by omega
      rw [e3] at h1
      have h2 : rk[olds.length - 1 - (news.length - 1 - i)]? = some k := by
        rw [← h1]; exact hik
      obtain ⟨hb2, h2'⟩ := List.getElem?_eq_some.mp h2
      have hjeq : olds.length - 1 - (news.length - 1 - i) = j :=
        (List.Nodup.getElem_inj_iff hrnd).mp (by rw [h2', hjk'])
      have hz1 : (news.drop lt)[i - lt]? = some (news[i]) := by
        rw [List.getElem?_drop, show lt + (i - lt) = i from by omega]
        exact List.getElem?_eq_getElem hi'
      have hz2 : (olds.drop rt)[i - lt]? = some (olds[j]) := by
        rw [List.getElem?_drop, show rt + (i - lt) = j from by omega]
        exact List.getElem?_eq_getElem hj'
      have hz := getElem?_zip_some hz1 hz2
      refine ⟨⟨(news[i]).key, (olds[j]).inst⟩, ?_, hj', rfl, ?_⟩
      · rw [hout1, List.getElem?_append_right (by rw [hAlen]; omega), hAlen,
          List.getElem?_append_right (by rw [hBlen]; omega), hBlen,
          show i - fs - (lt - fs) = i - lt from by omega, htlrev,
          List.getElem?_map, hz]
        rfl
      · rw [hout2]
        refine hops_mono2 _ ?_
        rw [htl_def, patch_all_ops]
        refine List.mem_append_right _ ?_
        rw [List.mem_map]
        exact ⟨(news[i], olds[j]),
          by rw [List.mem_reverse]; exact List.getElem?_mem hz, rfl⟩
  · intro i k hik hknotin
    obtain ⟨hi, hik'⟩ := List.getElem?_eq_some.mp hik
    have hi' : i < news.length := by omega
    rcases Nat.lt_or_ge i fs with hifs | hifs
    · exfalso
      have h1 : rk[i]? = some k := by rw [← hhead i hifs]; exact hik
      exact hknotin (List.getElem?_mem h1)
    rcases Nat.lt_or_ge i lt with hilt | hilt
    · -- middle zone, key absent from the old side
      have hfind : aFind m0 k = none := by
        rw [hm0eq]
        refine aFind_annotateP_none _ none k ?_
        rw [hm0keys]
        intro hmem
        exact hknotin (List.mem_of_mem_drop (List.mem_of_mem_take hmem))
      have hkz1 : ((lk.drop fs).take (lt - fs))[i - fs]? = some k := by
        rw [List.getElem?_take_of_lt (by omega), List.getElem?_drop,
          show fs + (i - fs) = i from by omega]
        exact hik
      have hkz2 : ((news.drop fs).take (lt - fs))[i - fs]? = some (news[i]) := by
        rw [List.getElem?_take_of_lt (by omega), List.getElem?_drop,
          show fs + (i - fs) = i from by omega]
        exact List.getElem?_eq_getElem hi'
      have hkzip := getElem?_zip_some hkz1 hkz2
      have hkziplen : (((lk.drop fs).take (lt - fs)).zip
          ((news.drop fs).take (lt - fs))).length = lt - fs := by
        simp only [List.length_zip, List.length_take, List.length_drop]
        omega
      have hp : ps[(lt - fs) - 1 - (i - fs)]? = some (k, news[i]) := by
        rw [hps_def, List.getElem?_reverse (by rw [hkziplen]; omega), hkziplen,
          show (lt - fs) - 1 - ((lt - fs) - 1 - (i - fs)) = i - fs from by omega]
        exact hkzip
      obtain ⟨a, ha1, ha2, ha3⟩ := mid_assigned ps none m0 tl.2 hpsnd _ _ hp
      rw [← hw_def] at ha1 ha3
      rcases ha3 with ⟨r', nrk', hf', _, _⟩ | ⟨hf', hfr, an, hops⟩
      · rw [hfind] at hf'
        exact Option.noConfusion hf'
      · refine ⟨a, ?_, by rw [htlfresh] at hfr; exact hfr, an, ?_⟩
        · rw [hout1, List.getElem?_append_right (by rw [hAlen]; omega), hAlen,
            List.getElem?_append_left (by rw [hBlen]; omega),
            List.getElem?_reverse (by rw [hw1len]; omega), hw1len]
          exact ha1
        · rw [hout2]
          exact hops_mono3 _ hops
    · exfalso
      have hs : news.length - 1 - i < fe := by omega
      have h1 := hsuffix (news.length - 1 - i) hs
      have e3 : news.length - 1 - (news.length - 1 - i) = i := by omega
      rw [e3] at h1
      have h2 : rk[olds.length - 1 - (news.length - 1 - i)]? = some k := by
        rw [← h1]; exact hik
      exact hknotin (List.getElem?_mem h2)
  · intro j k hjk hknotin
    obtain ⟨hj, hjk'⟩ := List.getElem?_eq_some.mp hjk
    have hj' : j < olds.length := by omega
    have hjfs : fs ≤ j := by
      by_contra hjlt
      push_neg at hjlt
      have h1 : lk[j]? = some k := by rw [hhead j hjlt]; exact hjk
      exact hknotin (List.getElem?_mem h1)
    have hjrt : j < rt := by
      by_contra hge
      push_neg at hge
      have hs : olds.length - 1 - j < fe := by omega
      have h1 := hsuffix (olds.length - 1 - j) hs
      have e3 : olds.length - 1 - (olds.length - 1 - j) = j := by omega
      rw [e3] at h1
      have h2 : lk[news.length - 1 - (olds.length - 1 - j)]? = some k := by
        rw [h1]; exact hjk
      exact hknotin (List.getElem?_mem h2)
    have hu : j - fs < rt - fs := by omega
    have hz1 : ((rk.drop fs).take (rt - fs))[j - fs]? = some k := by
      rw [List.getElem?_take_of_lt hu, List.getElem?_drop,
        show fs + (j - fs) = j from by omega]
      exact hjk
    have hz2 : ((olds.drop fs).take (rt - fs))[j - fs]? = some (olds[j]) := by
      rw [List.getElem?_take_of_lt hu, List.getElem?_drop,
        show fs + (j - fs) = j from by omega]
      exact List.getElem?_eq_getElem hj'
    have hzm := getElem?_zip_some hz1 hz2
    have hmem := List.getElem?_mem hzm
    obtain ⟨nbr, hfindm0⟩ :=
      aFind_annotateP_some _ none k _ (by rw [hm0keys]; exact hmidkeys) hmem
    have hfind : aFind m0 k = some (olds[j], nbr) := by
      rw [hm0eq]; exact hfindm0
    have he0 : (k, (olds[j], nbr)) ∈ m0 := aFind_mem m0 k _ hfind
    have hkps : (k : Nat) ∉ ps.map Prod.fst := by
      rw [hpskeys, List.mem_reverse]
      intro hmem2
      exact hknotin (List.mem_of_mem_drop (List.mem_of_mem_take hmem2))
    have hkeep : (k, (olds[j], nbr)) ∈ w.2.1 := by
      rw [hw_def]
      exact mid_map_keep ps none m0 tl.2 _ he0 hkps
    have hdlmem : (olds[j]) ∈ dl := by
      rw [hdl_def]
      exact List.mem_map_of_mem _ hkeep
    refine ⟨hj', ?_, ?_⟩
    · rw [hout2, hhd_def, patch_all_ops]
      refine List.mem_append_left _ ?_
      rw [hst3_def]
      exact detach_all_detach_mem dl w.2.2 _ hdlmem
    · rw [hout2, hhd_def, patch_all_dom, hst3_def]
      exact detach_all_kills dl w.2.2 _ hwfw.1 hdlmem

/-- Characterisation of `apply_unkeyed` when the common key prefix covers the
shorter side (the keyed fast path): matched prefix positions are patched
pairwise, surplus new nodes are created fresh, surplus old nodes are detached
and removed from the container. -/
theorem apply_unkeyed_fast_char
    (news : List LNode) (olds : List RNode) (st : St) (lk rk : List Nat)
    (hlk : collect_keys LNode.key news = some lk)
    (hrk : collect_keys RNode.key olds = some rk)
    (hlnd : lk.Nodup) (hrnd : rk.Nodup)
    (hwf : Wf st)
    (hfast : matching_len lk rk = min news.length olds.length) :
    (apply_unkeyed news olds st).1.length = news.length ∧
    (∀ i j k : Nat, lk[i]? = some k → rk[j]? = some k →
      ∃ a : RNode, (apply_unkeyed news olds st).1[i]? = some a ∧
        ∃ hj : j < olds.length, a.inst = (olds[j]).inst ∧
          Op.patch (olds[j]).inst ∈ (apply_unkeyed news olds st).2.ops) ∧
    (∀ i k : Nat, lk[i]? = some k → k ∉ rk →
      ∃ a : RNode, (apply_unkeyed news olds st).1[i]? = some a ∧
        st.fresh ≤ a.inst ∧
        ∃ an, Op.create a.inst an ∈ (apply_unkeyed news olds st).2.ops) ∧
    (∀ j k : Nat, rk[j]? = some k → k ∉ lk →
      ∃ hj : j < olds.length,
        Op.detach (olds[j]).inst ∈ (apply_unkeyed news olds st).2.ops ∧
        (olds[j]).inst ∉ (apply_unkeyed news olds st).2.dom) := by
  have hlkn := collect_keys_length _ _ _ hlk
  have hrkn := collect_keys_length _ _ _ hrk
  rw [apply_unkeyed_eq_spec]
  by_cases hmn : olds.length ≤ news.length
  · -- surplus (or none) on the new side
    have hminm : min news.length olds.length = olds.length := by omega
    rw [hminm] at hfast
    have hpm : ∀ i2, i2 < olds.length → lk[i2]? = rk[i2]? := fun i2 hi2 =>
      matching_len_get lk rk i2 (by omega)
    set p := add_all (news.drop olds.length).reverse st with hp_def
    set q := patch_all ((news.take olds.length).zip olds).reverse p.2 with hq_def
    have hout1 : (unkeyed_spec news olds st).1 = q.1.reverse ++ p.1.reverse := by
      simp only [unkeyed_spec, if_pos hmn, hq_def, hp_def, List.reverse_append]
    have hout2 : (unkeyed_spec news olds st).2 = q.2 := by
      simp only [unkeyed_spec, if_pos hmn, hq_def, hp_def]
    have hq1 : q.1 = (((news.take olds.length).zip olds).reverse).map
        (fun x => (⟨x.1.key, x.2.inst⟩ : RNode)) := by rw [hq_def, patch_all_eq]
    have hqrev : q.1.reverse = ((news.take olds.length).zip olds).map
        (fun x => (⟨x.1.key, x.2.inst⟩ : RNode)) := by
      rw [hq1, List.reverse_map, List.reverse_reverse]
    have hqlen : q.1.reverse.length = olds.length := by
      rw [hqrev]
      simp only [List.length_map, List.length_zip, List.length_take]
      omega
    have hplen : p.1.length = news.length - olds.length := by
      rw [hp_def, add_all_length, List.length_reverse, List.length_drop]
    refine ⟨?_, ?_, ?_, ?_⟩
    · rw [hout1]
      simp only [List.length_append, List.length_reverse, hplen]
      rw [List.length_reverse] at hqlen
      rw [hqlen]
      omega
    · intro i j k hik hjk
      obtain ⟨hi, hik'⟩ := List.getElem?_eq_some.mp hik
      obtain ⟨hj, hjk'⟩ := List.getElem?_eq_some.mp hjk
      have hi' : i < news.length := by omega
      have hj' : j < olds.length := by omega
      have h1 : lk[j]? = some k := by rw [hpm j hj']; exact hjk
      obtain ⟨hj2, h1'⟩ := List.getElem?_eq_some.mp h1
      have hij : i = j := (List.Nodup.getElem_inj_iff hlnd).mp (by rw [h1', hik'])
      subst hij
      have hz : ((news.take olds.length).zip olds)[i]? =
          some (news[i], olds[i]) :=
        getElem?_zip_some
          (by rw [List.getElem?_take_of_lt hj']; exact List.getElem?_eq_getElem hi')
          (List.getElem?_eq_getElem hj')
      refine ⟨⟨(news[i]).key, (olds[i]).inst⟩, ?_, hj', rfl, ?_⟩
      · rw [hout1, List.getElem?_append_left (by rw [hqlen]; omega), hqrev,
          List.getElem?_map, hz]
        rfl
      · rw [hout2, hq_def, patch_all_ops]
        refine List.mem_append_right _ ?_
        rw [List.mem_map]
        exact ⟨(news[i], olds[i]),
          by rw [List.mem_reverse]; exact List.getElem?_mem hz, rfl⟩
    · intro i k hik hknotin
      obtain ⟨hi, hik'⟩ := List.getElem?_eq_some.mp hik
      have hi' : i < news.length := by omega
      have him : olds.length ≤ i := by
        by_contra hlt2
        push_neg at hlt2
        have h1 : rk[i]? = some k := by rw [← hpm i hlt2]; exact hik
        exact hknotin (List.getElem?_mem h1)
      have hidx : news.length - olds.length - 1 - (i - olds.length) <
          ((news.drop olds.length).reverse).length := by
        rw [List.length_reverse, List.length_drop]
        omega
      have hval := add_all_get ((news.drop olds.length).reverse) st
        (news.length - olds.length - 1 - (i - olds.length))
        hidx
      refine ⟨⟨((news.drop olds.length).reverse)[news.length - olds.length - 1 -
          (i - olds.length)].key,
        st.fresh + (news.length - olds.length - 1 - (i - olds.length))⟩, ?_, ?_, ?_⟩
      · rw [hout1, List.getElem?_append_right (by rw [hqlen]; omega), hqlen,
          List.getElem?_reverse (by rw [hplen]; omega), hplen]
        exact hval
      · exact Nat.le_add_right _ _
      · obtain ⟨an, han⟩ := add_all_create_mem ((news.drop olds.length).reverse) st
          (news.length - olds.length - 1 - (i - olds.length)) hidx
        refine ⟨an, ?_⟩
        rw [hout2, hq_def, patch_all_ops]
        refine List.mem_append_left _ ?_
        rw [← hp_def] at han
        exact han
    · intro j k hjk hknotin
      obtain ⟨hj, hjk'⟩ := List.getElem?_eq_some.mp hjk
      have hj' : j < olds.length := by omega
      exfalso
      have h1 : lk[j]? = some k := by rw [hpm j hj']; exact hjk
      exact hknotin (List.getElem?_mem h1)
  · -- surplus on the old side
    push_neg at hmn
    have hminn : min news.length olds.length = news.length := by omega
    rw [hminn] at hfast
    have hpm : ∀ i2, i2 < news.length → lk[i2]? = rk[i2]? := fun i2 hi2 =>
      matching_len_get lk rk i2 (by omega)
    set st1 := detach_all (olds.drop news.length).reverse st with hst1_def
    set q := patch_all ((news.zip (olds.take news.length)).reverse) st1 with hq_def
    have hout1 : (unkeyed_spec news olds st).1 = q.1.reverse := by
      simp only [unkeyed_spec, if_neg (by omega : ¬ olds.length ≤ news.length),
        hq_def, hst1_def]
    have hout2 : (unkeyed_spec news olds st).2 = q.2 := by
      simp only [unkeyed_spec, if_neg (by omega : ¬ olds.length ≤ news.length),
        hq_def, hst1_def]
    have hq1 : q.1 = ((news.zip (olds.take news.length)).reverse).map
        (fun x => (⟨x.1.key, x.2.inst⟩ : RNode)) := by rw [hq_def, patch_all_eq]
    have hqrev : q.1.reverse = (news.zip (olds.take news.length)).map
        (fun x => (⟨x.1.key, x.2.inst⟩ : RNode)) := by
      rw [hq1, List.reverse_map, List.reverse_reverse]
    have hqlen : q.1.reverse.length = news.length := by
      rw [hqrev]
      simp only [List.length_map, List.length_zip, List.length_take]
      omega
    refine ⟨?_, ?_, ?_, ?_⟩
    · rw [hout1]
      rw [List.length_reverse] at hqlen
      rw [List.length_reverse, hqlen]
    · intro i j k hik hjk
      obtain ⟨hi, hik'⟩ := List.getElem?_eq_some.mp hik
      obtain ⟨hj, hjk'⟩ := List.getElem?_eq_some.mp hjk
      have hi' : i < news.length := by omega
      have hj' : j < olds.length := by omega
      have hjn : j < news.length := by
        by_contra hge
        push_neg at hge
        have h1 : rk[i]? = some k := by rw [← hpm i hi']; exact hik
        obtain ⟨hi2, h1'⟩ := List.getElem?_eq_some.mp h1
        have : i = j := (List.Nodup.getElem_inj_iff hrnd).mp (by rw [h1', hjk'])
        omega
      have h1 : lk[j]? = some k := by rw [hpm j hjn]; exact hjk
      obtain ⟨hj2, h1'⟩ := List.getElem?_eq_some.mp h1
      have hij : i = j := (List.Nodup.getElem_inj_iff hlnd).mp (by rw [h1', hik'])
      subst hij
      have hz : (news.zip (olds.take news.length))[i]? =
          some (news[i], olds[i]) :=
        getElem?_zip_some (List.getElem?_eq_getElem hi')
          (by rw [List.getElem?_take_of_lt hi']; exact List.getElem?_eq_getElem hj')
      refine ⟨⟨(news[i]).key, (olds[i]).inst⟩, ?_, hj', rfl, ?_⟩
      · rw [hout1, hqrev, List.getElem?_map, hz]
        rfl
      · rw [hout2, hq_def, patch_all_ops]
        refine List.mem_append_right _ ?_
        rw [List.mem_map]
        exact ⟨(news[i], olds[i]),
          by rw [List.mem_reverse]; exact List.getElem?_mem hz, rfl⟩
    · intro i k hik hknotin
      obtain ⟨hi, hik'⟩ := List.getElem?_eq_some.mp hik
      have hi' : i < news.length := by omega
      exfalso
      have h1 : rk[i]? = some k := by rw [← hpm i hi']; exact hik
      exact hknotin (List.getElem?_mem h1)
    · intro j k hjk hknotin
      obtain ⟨hj, hjk'⟩ := List.getElem?_eq_some.mp hjk
      have hj' : j < olds.length := by omega
      have hjn : news.length ≤ j := by
        by_contra hlt2
        push_neg at hlt2
        have h1 : lk[j]? = some k := by rw [hpm j hlt2]; exact hjk
        exact hknotin (List.getElem?_mem h1)
      have hgz : (olds.drop news.length)[j - news.length]? = some (olds[j]) := by
        rw [List.getElem?_drop, show news.length + (j - news.length) = j from by
          omega]
        exact List.getElem?_eq_getElem hj'
      have hmemd : (olds[j]) ∈ (olds.drop news.length).reverse := by
        rw [List.mem_reverse]
        exact List.getElem?_mem hgz
      refine ⟨hj', ?_, ?_⟩
      · rw [hout2, hq_def, patch_all_ops]
        refine List.mem_append_left _ ?_
        rw [hst1_def]
        exact detach_all_detach_mem _ _ _ hmemd
      · rw [hout2, hq_def, patch_all_dom, hst1_def]
        exact detach_all_kills _ _ _ hwf.1 hmemd

/-! ## Dispatch of `apply_keyed` -/

theorem apply_keyed_fast_eq (news : List LNode) (olds : List RNode) (st : St)
    (lk rk : List Nat)
    (hlk : collect_keys LNode.key news = some lk)
    (hrk : collect_keys RNode.key olds = some rk)
    (hfast : matching_len lk rk = min news.length olds.length) :
    apply_keyed news olds st = some (apply_unkeyed news olds st) := by
  simp [apply_keyed, hlk, hrk, hfast]

theorem apply_keyed_slow_eq (news : List LNode) (olds : List RNode) (st : St)
    (lk rk : List Nat)
    (hlk : collect_keys LNode.key news = some lk)
    (hrk : collect_keys RNode.key olds = some rk)
    (hne : matching_len lk rk ≠ min news.length olds.length) :
    apply_keyed news olds st = some (apply_keyed_slow news olds lk rk st) := by
  simp [apply_keyed, hlk, hrk, hne]

/-- The property claimed for the keyed reconciler on uniquely keyed lists:
one rendered node per new child; a key present on both sides keeps its old
instance (patched); a key only on the new side gets a freshly created
instance; a key only on the old side is detached and gone from the final
container. -/
def KeyedIdentityOk (news : List LNode) (olds : List RNode) (st : St)
    (assigned : List RNode) (st' : St) : Prop :=
  assigned.length = news.length ∧
  (∀ (i j : Nat) (hi : i < news.length) (hj : j < olds.length) (k : Nat),
    (news[i]).key = some k → (olds[j]).key = some k →
    ∃ a : RNode, assigned[i]? = some a ∧ a.inst = (olds[j]).inst ∧
      Op.patch (olds[j]).inst ∈ st'.ops) ∧
  (∀ (i : Nat) (hi : i < news.length) (k : Nat), (news[i]).key = some k →
    (∀ r ∈ olds, r.key ≠ some k) →
    ∃ a : RNode, assigned[i]? = some a ∧ st.fresh ≤ a.inst ∧
      ∃ an, Op.create a.inst an ∈ st'.ops) ∧
  (∀ (j : Nat) (hj : j < olds.length) (k : Nat), (olds[j]).key = some k →
    (∀ l ∈ news, l.key ≠ some k) →
    Op.detach (olds[j]).inst ∈ st'.ops ∧ (olds[j]).inst ∉ st'.dom)

/-- Claim C1: keyed identity preservation.  For fully keyed child lists with
unique keys per side, mounted on a well-formed container holding exactly the
old children, `apply_keyed` preserves the underlying instance of every key
present on both sides (patching it, not recreating it), creates a fresh
instance for every key only on the new side, and detaches — removing from the
final container — the instance of every key only on the old side. -/
theorem C1_keyed_identity_preservation
    (news : List LNode) (olds : List RNode) (st : St) (lk rk : List Nat)
    (assigned : List RNode) (st' : St)
    (hlk : collect_keys LNode.key news = some lk)
    (hrk : collect_keys RNode.key olds = some rk)
    (hlnd : lk.Nodup) (hrnd : rk.Nodup)
    (hdom : st.dom = olds.map RNode.inst)
    (hinodup : (olds.map RNode.inst).Nodup)
    (hbound : ∀ r ∈ olds, r.inst < st.fresh)
    (hrun : apply_keyed news olds st = some (assigned, st')) :
    KeyedIdentityOk news olds st assigned st' := by
  have hlkn := collect_keys_length _ _ _ hlk
  have hrkn := collect_keys_length _ _ _ hrk
  have hwf : Wf st := by
    constructor
    · rw [hdom]; exact hinodup
    · intro x hx
      rw [hdom] at hx
      obtain ⟨r, hr, hrx⟩ := List.mem_map.mp hx
      exact hrx ▸ hbound r hr
  -- translations between node keys and the extracted key lists
  have hlkey : ∀ (i : Nat) (hi : i < news.length) (k : Nat),
      news[i].key = some k → lk[i]? = some k := by
    intro i hi k hk
    have h1 := collect_keys_get LNode.key news lk hlk i hi
    rw [← h1]
    exact hk
  have hrkey : ∀ (j : Nat) (hj : j < olds.length) (k : Nat),
      olds[j].key = some k → rk[j]? = some k := by
    intro j hj k hk
    have h1 := collect_keys_get RNode.key olds rk hrk j hj
    rw [← h1]
    exact hk
  have hnotin_rk : ∀ k : Nat, (∀ r ∈ olds, r.key ≠ some k) → k ∉ rk := by
    intro k hall hkin
    obtain ⟨j, hj⟩ := List.getElem?_of_mem hkin
    obtain ⟨hjb, hjv⟩ := List.getElem?_eq_some.mp hj
    have hjo : j < olds.length := by omega
    have h1 := collect_keys_get RNode.key olds rk hrk j hjo
    rw [hj] at h1
    exact hall _ (List.getElem_mem hjo) h1
  have hnotin_lk : ∀ k : Nat, (∀ l ∈ news, l.key ≠ some k) → k ∉ lk := by
    intro k hall hkin
    obtain ⟨i, hi⟩ := List.getElem?_of_mem hkin
    obtain ⟨hib, hiv⟩ := List.getElem?_eq_some.mp hi
    have hio : i < news.length := by omega
    have h1 := collect_keys_get LNode.key news lk hlk i hio
    rw [hi] at h1
    exact hall _ (List.getElem_mem hio) h1
  by_cases hfast : matching_len lk rk = min news.length olds.length
  · -- fast path: delegated to the unkeyed reconciler
    rw [apply_keyed_fast_eq news olds st lk rk hlk hrk hfast] at hrun
    have hrun' := Option.some.inj hrun
    obtain ⟨h1, h2, h3, h4⟩ :=
      apply_unkeyed_fast_char news olds st lk rk hlk hrk hlnd hrnd hwf hfast
    rw [hrun'] at h1 h2 h3 h4
    refine ⟨h1, ?_, ?_, ?_⟩
    · intro i j hi hj k hik hjk
      obtain ⟨a, ha1, ⟨hj2, ha2, ha3⟩⟩ :=
        h2 i j k (hlkey i hi k hik) (hrkey j hj k hjk)
      exact ⟨a, ha1, ha2, ha3⟩
    · intro i hi k hik hall
      exact h3 i k (hlkey i hi k hik) (hnotin_rk k hall)
    · intro j hj k hjk hall
      obtain ⟨hj2, hd1, hd2⟩ := h4 j k (hrkey j hj k hjk) (hnotin_lk k hall)
      exact ⟨hd1, hd2⟩
  · -- slow path
    rw [apply_keyed_slow_eq news olds st lk rk hlk hrk hfast] at hrun
    have hrun' := Option.some.inj hrun
    obtain ⟨h1, h2, h3, h4⟩ :=
      apply_keyed_slow_char news olds st lk rk hlk hrk hlnd hrnd hwf hbound hfast
    rw [hrun'] at h1 h2 h3 h4
    refine ⟨h1, ?_, ?_, ?_⟩
    · intro i j hi hj k hik hjk
      obtain ⟨a, ha1, ⟨hj2, ha2, ha3⟩⟩ :=
        h2 i j k (hlkey i hi k hik) (hrkey j hj k hjk)
      exact ⟨a, ha1, ha2, ha3⟩
    · intro i hi k hik hall
      exact h3 i k (hlkey i hi k hik) (hnotin_rk k hall)
    · intro j hj k hjk hall
      obtain ⟨hj2, hd1, hd2⟩ := h4 j k (hrkey j hj k hjk) (hnotin_lk k hall)
      exact ⟨hd1, hd2⟩

/-- Witness for C1 at a concrete input: new keys `[2, 1]` against old keys
`[1, 3]` with instances `10, 11`; key 1 keeps instance 10, key 2 gets fresh
instance 20, key 3's instance 11 is detached. -/
theorem C1_keyed_identity_preservation_witness :
    KeyedIdentityOk [⟨some 2⟩, ⟨some 1⟩] [⟨some 1, 10⟩, ⟨some 3, 11⟩]
      ⟨[10, 11], none, 20, []⟩
      [⟨some 2, 20⟩, ⟨some 1, 10⟩]
      ⟨[20, 10], some 20, 21,
        [Op.move 10 none, Op.patch 10, Op.create 20 (some 10), Op.detach 11]⟩ :=
  C1_keyed_identity_preservation
    [⟨some 2⟩, ⟨some 1⟩] [⟨some 1, 10⟩, ⟨some 3, 11⟩]
    ⟨[10, 11], none, 20, []⟩ [2, 1] [1, 3]
    [⟨some 2, 20⟩, ⟨some 1, 10⟩]
    ⟨[20, 10], some 20, 21,
      [Op.move 10 none, Op.patch 10, Op.create 20 (some 10), Op.detach 11]⟩
    rfl rfl (by decide) (by decide) rfl (by decide) (by decide) rfl

/-! ## Claims C2-C5 -/

/-- Number of `move_before` calls recorded in a trace. -/
def count_moves (l : List Op) : Nat :=
  l.countP fun o => match o with | Op.move _ _ => true | _ => false

/-- Number of fresh creations recorded in a trace. -/
def count_creates (l : List Op) : Nat :=
  l.countP fun o => match o with | Op.create _ _ => true | _ => false

/-- Number of detaches recorded in a trace. -/
def count_detaches (l : List Op) : Nat :=
  l.countP fun o => match o with | Op.detach _ => true | _ => false

/-- Claim C2: the keyed middle pass.  (1) With unique old-middle keys, the
lookup map built right-to-left stores every old node under its key together
with the key of its immediate right neighbour in the old order (`none` for
the rightmost); (2) a new key found in the map recovers the old node, is
conditionally moved (`maybe_move`) and then patched against it, the map entry
being removed; (3) a new key absent from the map is created with no previous
node and the map is unchanged; (4) when the stored old right-neighbour key
and the tracked new right-neighbour key are both present and equal, no move
happens; (5) in every other case `move_before` is called. -/
theorem C2_keyed_middle_pass :
    (∀ pairs : List (Nat × RNode), (pairs.map Prod.fst).Nodup →
      mk_rights_diff pairs = annotateP pairs none) ∧
    (∀ (lk : Nat) (l : LNode) (rest : List (Nat × LNode)) (nlk : Option Nat)
        (m : KMap) (st : St) (r : RNode) (nrk : Option Nat),
      aFind m lk = some (r, nrk) →
      apply_keyed_mid ((lk, l) :: rest) nlk m st =
        (let st1 := maybe_move st r nrk nlk
         let q := writer_patch st1 l r
         let w := apply_keyed_mid rest (some lk) (aRemove m lk).2 q.1
         (q.2 :: w.1, w.2.1, w.2.2))) ∧
    (∀ (lk : Nat) (l : LNode) (rest : List (Nat × LNode)) (nlk : Option Nat)
        (m : KMap) (st : St),
      aFind m lk = none →
      apply_keyed_mid ((lk, l) :: rest) nlk m st =
        (let q := writer_add st l
         let w := apply_keyed_mid rest (some lk) m q.1
         (q.2 :: w.1, w.2.1, w.2.2))) ∧
    (∀ (st : St) (r : RNode) (a : Nat),
      maybe_move st r (some a) (some a) = st) ∧
    (∀ (st : St) (r : RNode) (nrk nlk : Option Nat),
      (∀ a : Nat, ¬(nrk = some a ∧ nlk = some a)) →
      maybe_move st r nrk nlk = move_before st r) := by
  refine ⟨?_, ?_, ?_, ?_, ?_⟩
  · exact fun pairs h => mk_rights_diff_eq_annotateP pairs h
  · intro lk l rest nlk m st r nrk h
    exact apply_keyed_mid_found lk l rest nlk m st r nrk h
  · intro lk l rest nlk m st h
    have h2 := aRemove_none m lk h
    have := apply_keyed_mid_absent lk l rest nlk m st h
    simpa using this
  · intro st r a
    simp [maybe_move]
  · intro st r nrk nlk hne
    rcases nrk with _ | x <;> rcases nlk with _ | y <;> simp [maybe_move]
    intro hxy
    exact absurd ⟨rfl, by rw [hxy]⟩ (hne x)

/-- Witness for C2 at a concrete input: the map built from old middle nodes
with keys `[4, 7]` holds each node with its right neighbour's key. -/
theorem C2_keyed_middle_pass_witness :
    mk_rights_diff [(4, ⟨some 4, 9⟩), (7, ⟨some 7, 8⟩)] =
      annotateP [(4, ⟨some 4, 9⟩), (7, ⟨some 7, 8⟩)] none :=
  C2_keyed_middle_pass.1 [(4, ⟨some 4, 9⟩), (7, ⟨some 7, 8⟩)] (by decide)

/-- Claim C3: the keyed fast path refines the unkeyed reconciler.  When the
longest common key prefix covers the shorter side, `apply_keyed` returns
exactly the result of `apply_unkeyed` on the full lists. -/
theorem C3_fast_path_refines_unkeyed
    (news : List LNode) (olds : List RNode) (st : St) (lk rk : List Nat)
    (hlk : collect_keys LNode.key news = some lk)
    (hrk : collect_keys RNode.key olds = some rk)
    (hfast : matching_len lk rk = min news.length olds.length) :
    apply_keyed news olds st = some (apply_unkeyed news olds st) :=
  apply_keyed_fast_eq news olds st lk rk hlk hrk hfast

/-- Witness for C3 at a concrete input: new keys `[1, 2]` against old key
`[1]` (pure tail append). -/
theorem C3_fast_path_refines_unkeyed_witness :
    apply_keyed [⟨some 1⟩, ⟨some 2⟩] [⟨some 1, 5⟩] ⟨[5], none, 6, []⟩ =
      some (apply_unkeyed [⟨some 1⟩, ⟨some 2⟩] [⟨some 1, 5⟩]
        ⟨[5], none, 6, []⟩) :=
  C3_fast_path_refines_unkeyed [⟨some 1⟩, ⟨some 2⟩] [⟨some 1, 5⟩]
    ⟨[5], none, 6, []⟩ [1, 2] [1] rfl rfl (by decide)

/-- Claim C4: the unkeyed reconciler performs exactly the algorithm the
specification describes — the `diff` rightmost new nodes are created (when
`diff > 0`), the `-diff` rightmost old nodes are detached (when `diff < 0`),
the remaining equal-count elements are zipped positionally from the tail and
patched, and the final anchor is returned (the whole final state is equal). -/
theorem C4_unkeyed_reconciler_spec (news : List LNode) (olds : List RNode)
    (st : St) : apply_unkeyed news olds st = unkeyed_spec news olds st :=
  apply_unkeyed_eq_spec news olds st

/-- The reversal scenario of C5: old keys `[1,2,3,4,5]` mounted as instances
`1..5`, new order `[5,4,3,2,1]`. -/
def olds_rev : List RNode :=
  [⟨some 1, 1⟩, ⟨some 2, 2⟩, ⟨some 3, 3⟩, ⟨some 4, 4⟩, ⟨some 5, 5⟩]

/-- The new child list of the reversal scenario. -/
def news_rev : List LNode :=
  [⟨some 5⟩, ⟨some 4⟩, ⟨some 3⟩, ⟨some 2⟩, ⟨some 1⟩]

/-- Initial state of the reversal scenario. -/
def st_rev : St := ⟨[1, 2, 3, 4, 5], none, 6, []⟩

/-- The reversal run (the keyed reconciler applied to the scenario). -/
def run_rev : List RNode × St :=
  (apply_keyed news_rev olds_rev st_rev).getD ([], st_rev)

/-- Counterexample to C5 as stated: the reversal performs five `move_before`
calls — every element of the mismatched middle is moved, including the
pivot — so the claimed bound of at most four fails. -/
theorem C5_reversal_bound_counterexample :
    ¬ (1 ≤ count_moves run_rev.2.ops ∧ count_moves run_rev.2.ops ≤ 4) := by
  decide

/-- Claim C5 (amended): reconciling keys `[1,2,3,4,5]` to `[5,4,3,2,1]`
yields final container order `5,4,3,2,1`, detaches no node, creates no node
(all five are matched by key, each keeping its instance), and performs
exactly five `move_before` calls. -/
theorem C5_reversal_amended :
    run_rev.2.dom = [5, 4, 3, 2, 1] ∧
    count_detaches run_rev.2.ops = 0 ∧
    count_creates run_rev.2.ops = 0 ∧
    count_moves run_rev.2.ops = 5 ∧
    run_rev.1 =
      [⟨some 5, 5⟩, ⟨some 4, 4⟩, ⟨some 3, 3⟩, ⟨some 2, 2⟩, ⟨some 1, 1⟩] := by
  decide

/-! ## Claims C6-C10 -/

/-- Claim C6: the empty-sequence placeholder.  When `apply` runs on a
sequence with no children, a single empty text node (which has no key) is
appended first, this sets the sequence's `fully_keyed` flag to `false`, and
reconciliation therefore always proceeds through the unkeyed reconciler
against the normalised previous side. -/
theorem C6_empty_sequence_placeholder (v : VList) (anc : Option VNodeA)
    (st : St) (hv : v.children = []) :
    v.with_placeholder = ⟨[vtext_empty], false, v.key⟩ ∧
    v.apply anc st =
      some (apply_unkeyed [vtext_empty] (normalize_ancestor anc).1 st) := by
  obtain ⟨cs, fk, k⟩ := v
  simp only at hv
  subst hv
  have h1 : VList.with_placeholder ⟨[], fk, k⟩ = ⟨[vtext_empty], false, k⟩ := by
    simp only [VList.with_placeholder, VList.add_child, List.isEmpty_nil,
      if_true, vtext_empty, LNode.has_key, Option.isSome_none, Bool.not_false,
      Bool.and_true, List.nil_append]
    cases fk <;> rfl
  refine ⟨h1, ?_⟩
  simp only [VList.apply, h1, Bool.false_and, if_neg (by simp : ¬ false = true)]

/-- Witness for C6 at a concrete input: a fresh empty `VList` applied with no
ancestor. -/
theorem C6_empty_sequence_placeholder_witness :
    VList.new.with_placeholder = ⟨[vtext_empty], false, none⟩ ∧
    VList.new.apply none ⟨[], none, 0, []⟩ =
      some (apply_unkeyed [vtext_empty]
        (normalize_ancestor none).1 ⟨[], none, 0, []⟩) :=
  C6_empty_sequence_placeholder VList.new none ⟨[], none, 0, []⟩ rfl

/-- Claim C7: normalisation of the previous side and dispatch.  A prior
`VList` contributes its children with its cached flag; any other prior node
is wrapped as a singleton whose keyedness is its own `has_key`; no ancestor
gives an empty, vacuously fully keyed list.  The keyed reconciler runs
exactly when both the (placeholder-adjusted) new sequence's flag and the
normalised previous side's flag are true; otherwise the unkeyed reconciler
runs. -/
theorem C7_normalize_and_dispatch (v : VList) (st : St) :
    (∀ (cs : List RNode) (fk : Bool) (k2 : Option Nat),
      normalize_ancestor (some (.vlist cs fk k2)) = (cs, fk)) ∧
    (∀ (k2 : Option Nat) (i : Nat),
      normalize_ancestor (some (.node k2 i)) = ([⟨k2, i⟩], k2.isSome)) ∧
    normalize_ancestor none = ([], true) ∧
    (∀ (cs : List RNode) (fk : Bool) (k2 : Option Nat),
      v.apply (some (.vlist cs fk k2)) st =
        if v.with_placeholder.fully_keyed && fk then
          apply_keyed v.with_placeholder.children cs st
        else some (apply_unkeyed v.with_placeholder.children cs st)) ∧
    (∀ (k2 : Option Nat) (i : Nat),
      v.apply (some (.node k2 i)) st =
        if v.with_placeholder.fully_keyed && k2.isSome then
          apply_keyed v.with_placeholder.children [⟨k2, i⟩] st
        else some (apply_unkeyed v.with_placeholder.children [⟨k2, i⟩] st)) ∧
    (v.apply none st =
        if v.with_placeholder.fully_keyed then
          apply_keyed v.with_placeholder.children [] st
        else some (apply_unkeyed v.with_placeholder.children [] st)) := by
  refine ⟨fun cs fk k2 => rfl, fun k2 i => rfl, rfl, fun cs fk k2 => rfl,
    fun k2 i => rfl, ?_⟩
  simp only [VList.apply, normalize_ancestor, Bool.and_true]

/-- The cached-flag invariant of C8: the flag equals "every child has a
key". -/
def fully_keyed_inv (v : VList) : Prop :=
  v.fully_keyed = v.children.all fun c => c.has_key

/-- The weak (one-sided) form of the invariant: a true flag still implies
that every child has a key. -/
def fully_keyed_weak (v : VList) : Prop :=
  v.fully_keyed = true → (v.children.all fun c => c.has_key) = true

theorem add_child_inv (v : VList) (c : LNode) (h : fully_keyed_inv v) :
    fully_keyed_inv (v.add_child c) := by
  simp only [fully_keyed_inv, VList.add_child, List.all_append, List.all_cons,
    List.all_nil, Bool.and_true] at *
  rw [h]
  cases hc : c.has_key <;>
    cases hall : v.children.all fun c => c.has_key <;> simp [hc, hall]

theorem add_children_inv (v : VList) (cs : List LNode)
    (h : fully_keyed_inv v) : fully_keyed_inv (v.add_children cs) := by
  induction cs generalizing v with
  | nil => exact h
  | cons c cs ih => exact ih (v.add_child c) (add_child_inv v c h)

theorem add_child_weak (v : VList) (c : LNode) (h : fully_keyed_weak v) :
    fully_keyed_weak (v.add_child c) := by
  simp only [fully_keyed_weak, VList.add_child, List.all_append, List.all_cons,
    List.all_nil, Bool.and_true] at *
  intro hflag
  cases hv : v.fully_keyed with
  | false => rw [hv] at hflag; simp at hflag
  | true =>
    rw [hv] at hflag
    cases hc : c.has_key with
    | false => rw [hc] at hflag; simp at hflag
    | true => simp [h hv, hc]

theorem add_children_weak (v : VList) (cs : List LNode)
    (h : fully_keyed_weak v) : fully_keyed_weak (v.add_children cs) := by
  induction cs generalizing v with
  | nil => exact h
  | cons c cs ih => exact ih (v.add_child c) (add_child_weak v c h)

/-- Claim C8: the `fully_keyed` cache invariant.  The flag equals "every
child has a key" for `new` and `with_children`; this is preserved by
`add_child`, `add_children` and restored by `recheck_fully_keyed`; mutable
dereference unconditionally clears the flag; and after any of these
operations a true flag still implies that every child has a key. -/
theorem C8_fully_keyed_cache_invariant :
    fully_keyed_inv VList.new ∧
    (∀ (cs : List LNode) (k : Option Nat),
      fully_keyed_inv (VList.with_children cs k)) ∧
    (∀ (v : VList) (c : LNode), fully_keyed_inv v →
      fully_keyed_inv (v.add_child c)) ∧
    (∀ (v : VList) (cs : List LNode), fully_keyed_inv v →
      fully_keyed_inv (v.add_children cs)) ∧
    (∀ v : VList, fully_keyed_inv v.recheck_fully_keyed) ∧
    (∀ v : VList, v.deref_mut.fully_keyed = false) ∧
    (∀ (v : VList) (c : LNode), fully_keyed_weak v →
      fully_keyed_weak (v.add_child c)) ∧
    (∀ (v : VList) (cs : List LNode), fully_keyed_weak v →
      fully_keyed_weak (v.add_children cs)) ∧
    (∀ v : VList, fully_keyed_weak v.deref_mut) ∧
    (∀ v : VList, fully_keyed_weak v.recheck_fully_keyed) :=
  ⟨rfl, fun cs k => rfl, add_child_inv, add_children_inv,
   fun v => rfl, fun v => rfl, add_child_weak, add_children_weak,
   fun v h => by simp [VList.deref_mut] at h,
   fun v h => h⟩

/-- Witness for C8 at a concrete input: pushing a keyed child onto a fresh
list keeps the invariant. -/
theorem C8_fully_keyed_cache_invariant_witness :
    fully_keyed_inv (VList.new.add_child ⟨some 1⟩) :=
  C8_fully_keyed_cache_invariant.2.2.1 VList.new ⟨some 1⟩ rfl

/-- The duplicate-key scenario of C9: the old middle zone carries key 7
twice (instances 11 and 12). -/
def olds_dup : List RNode :=
  [⟨some 1, 10⟩, ⟨some 7, 11⟩, ⟨some 7, 12⟩, ⟨some 2, 13⟩]

/-- The new child list of the duplicate-key scenario. -/
def news_dup : List LNode := [⟨some 3⟩, ⟨some 7⟩]

/-- Initial state of the duplicate-key scenario. -/
def st_dup : St := ⟨[10, 11, 12, 13], none, 14, []⟩

/-- The duplicate-key run. -/
def run_dup : List RNode × St :=
  (apply_keyed news_dup olds_dup st_dup).getD ([], st_dup)

/-- Claim C9: duplicate key behaviour.  First, on any fully keyed inputs —
duplicates included — `apply_keyed` completes (returns a result, no crash).
Second, in the concrete duplicate scenario, the head-most occurrence of the
duplicated key 7 (instance 11) wins the lookup-map entry and is the one
tracked and patched into the new tree, while the other occurrence (instance
12) is never patched, moved, or detached — it is silently dropped from the
tracked list yet remains live in the container. -/
theorem C9_duplicate_key_behavior :
    (∀ (news : List LNode) (olds : List RNode) (st : St)
        (lk rk : List Nat),
      collect_keys LNode.key news = some lk →
      collect_keys RNode.key olds = some rk →
      ∃ out, apply_keyed news olds st = some out) ∧
    (apply_keyed news_dup olds_dup st_dup = some run_dup ∧
     Op.patch 11 ∈ run_dup.2.ops ∧
     run_dup.1 = [⟨some 3, 14⟩, ⟨some 7, 11⟩] ∧
     Op.detach 12 ∉ run_dup.2.ops ∧
     Op.patch 12 ∉ run_dup.2.ops ∧
     (∀ a : Option Nat, Op.move 12 a ∉ run_dup.2.ops) ∧
     (∀ a ∈ run_dup.1, a.inst ≠ 12) ∧
     12 ∈ run_dup.2.dom ∧
     Op.detach 10 ∈ run_dup.2.ops ∧ Op.detach 13 ∈ run_dup.2.ops) := by
  constructor
  · intro news olds st lk rk hlk hrk
    simp only [apply_keyed, hlk, hrk]
    split
    · exact ⟨_, rfl⟩
    · exact ⟨_, rfl⟩
  · have hops : run_dup.2.ops = [Op.move 11 none, Op.patch 11,
        Op.create 14 (some 11), Op.detach 10, Op.detach 13] := by decide
    have hfst : run_dup.1 = [⟨some 3, 14⟩, ⟨some 7, 11⟩] := by decide
    refine ⟨by decide, by decide, hfst, by decide, by decide, ?_, ?_,
      by decide, by decide, by decide⟩
    · intro a ha
      rw [hops] at ha
      simp at ha
    · intro a ha
      rw [hfst] at ha
      rcases List.mem_cons.mp ha with rfl | ha2
      · decide
      · rcases List.mem_cons.mp ha2 with rfl | ha3
        · decide
        · simp at ha3

/-- Witness for C9's no-crash half at a concrete input. -/
theorem C9_duplicate_key_behavior_witness :
    ∃ out, apply_keyed [(⟨some 1⟩ : LNode)] ([] : List RNode)
      ⟨[], none, 0, []⟩ = some out :=
  C9_duplicate_key_behavior.1 [⟨some 1⟩] [] ⟨[], none, 0, []⟩ [1] [] rfl rfl

/-- Claim C10: derived equality is sensitive to the cached flag.  Two
`VList`s with identical children and identical key are unequal whenever
their `fully_keyed` flags differ; mutable dereference unconditionally clears
the flag, so a dereferenced fully keyed list no longer equals its original
until `recheck_fully_keyed` runs. -/
theorem C10_equality_sensitive_to_flag :
    (∀ v w : VList, v.children = w.children → v.key = w.key →
      v.fully_keyed ≠ w.fully_keyed → v ≠ w) ∧
    (∀ v : VList, v.deref_mut.fully_keyed = false) ∧
    (VList.with_children [⟨some 1⟩] none).deref_mut ≠
      VList.with_children [⟨some 1⟩] none ∧
    ((VList.with_children [⟨some 1⟩] none).deref_mut.recheck_fully_keyed =
      VList.with_children [⟨some 1⟩] none) := by
  refine ⟨?_, fun v => rfl, by decide, by decide⟩
  intro v w h1 h2 h3 heq
  exact h3 (heq ▸ rfl)

/-- Witness for C10 at a concrete input: clearing the flag of a keyed
singleton list makes it compare unequal to itself. -/
theorem C10_equality_sensitive_to_flag_witness :
    (VList.with_children [⟨some 2⟩] none).deref_mut ≠
      VList.with_children [⟨some 2⟩] none :=
  C10_equality_sensitive_to_flag.1 _ _ rfl rfl (by decide)
